import Mathlib

/-!
Verification of the `illusion` single-node blockchain core.

Shallow embedding conventions:
* Machine integers (`u8`, `u64`, `u128`, `usize`) are `Nat` with explicit range
  hypotheses where representability matters.
* Byte sequences (`Vec<u8>`, `[u8; 32]`) are `List Nat` of bytes (< 256); a
  32-byte `Hash` is a `List Nat` of length 32.
* `Rc<T>` is transparent for encoding and equality, so `Vec<Rc<T>>` is `List T`.
* `HashMap` / `HashSet` values built through the entry API are association
  lists updated in place (first matching key) with new keys appended; only
  key lookup, membership and iteration are used by the code.
* The cryptographic primitives SHA-256 (`sha2`), RIPEMD160-of-SHA-256
  (`hash_pub_key`) and base58 address decoding (`extract_pub_key_hash`) are
  external library calls; they are abstracted as fields of an `Env` record
  and every theorem is parametric in that record.
* Panics are modelled by `Option` (`none` = panic); the domain error of
  `new_tx` is `Except String`.
-/

namespace Illusion

/-- 32-byte digest (`pub type Hash = [u8; 32]`), modelled as a byte list. -/
abbrev Hash := List Nat

/-- `pub type ByteData = Vec<u8>`. -/
abbrev ByteData := List Nat

/-- Well-formed byte sequence: every element is an 8-bit value. -/
def WFBytes (l : List Nat) : Prop := ∀ b ∈ l, b < 256

instance (l : List Nat) : Decidable (WFBytes l) :=
  List.decidableBAll _ l

/-- Well-formed 32-byte hash. -/
def WFHash (h : Hash) : Prop := h.length = 32 ∧ WFBytes h

/-- External collaborators of the ledger core, abstracted: `sha` is the
SHA-256 digest (`sha2::Sha256`), `hashPK` is `hash_pub_key`
(RIPEMD160 ∘ SHA-256), `extractPKH` is `extract_pub_key_hash`
(base58-decode and strip version/checksum). All are deterministic
functions in the source. -/
structure Env where
  sha : List Nat → Hash
  hashPK : List Nat → List Nat
  extractPKH : String → List Nat

/-! ## Transaction model (`src/transaction.rs`) -/

/-- `struct TXInput` from `src/transaction.rs`. -/
structure TXInput where
  tx_id : Option Hash
  v_out_idx : Option Nat
  signature : Option ByteData
  pub_key : ByteData
deriving DecidableEq

/-- `struct TXOutput` from `src/transaction.rs`. -/
structure TXOutput where
  value : Nat
  pub_key_hash : ByteData
deriving DecidableEq

/-- `struct Transaction` from `src/transaction.rs`. -/
structure Transaction where
  id : Hash
  v_in : List TXInput
  v_out : List TXOutput
deriving DecidableEq

/-- `TXInput::use_key`: the input unlocks with `pub_key_hash` iff hashing its
declared public key equals `pub_key_hash`. -/
def TXInput.use_key (env : Env) (txi : TXInput) (pub_key_hash : List Nat) : Bool :=
  decide (env.hashPK txi.pub_key = pub_key_hash)

/-- `TXOutput::is_locking_with_key`: the stored locking hash equals the query. -/
def TXOutput.is_locking_with_key (txo : TXOutput) (pub_key_hash : List Nat) : Bool :=
  decide (txo.pub_key_hash = pub_key_hash)

/-- `TXOutput::new(value, address)`. -/
def TXOutput.new (env : Env) (value : Nat) (address : String) : TXOutput :=
  ⟨value, env.extractPKH address⟩

/-- `Transaction::is_coinbase_tx`: exactly one input and that input has no
referenced transaction id (`v_in.len() == 1 && v_in[0].tx_id.is_none()`). -/
def Transaction.is_coinbase_tx (tx : Transaction) : Bool :=
  match tx.v_in with
  | [txi] => txi.tx_id.isNone
  | _ => false

/-! ## Proof-of-work validation (`src/pow.rs::validate_hash`) -/

/-- `pub const TARGET_BITS: u8 = 1` from `src/pow.rs`. -/
def TARGET_BITS : Nat := 1

/-- The byte loop of `validate_hash`, carrying the running `checksum` and the
remaining bit `count`. Mirrors `src/pow.rs` lines 52-70: for each byte, if
`count >= 8` fold the whole byte into the checksum and fail early when it is
nonzero; otherwise fold in the top `count` bits of the byte and stop. -/
def validateGo (checksum : Nat) (count : Nat) : List Nat → Bool
  | [] => decide (checksum = 0)
  | byte :: rest =>
    if 8 ≤ count then
      let c2 := checksum ||| byte
      if c2 ≠ 0 then false else validateGo c2 (count - 8) rest
    else
      let c2 := if 0 < count then checksum ||| (byte >>> (8 - count)) else checksum
      decide (c2 = 0)

/-- `validate_hash` with the difficulty made explicit (the source reads the
compile-time constant `TARGET_BITS`). -/
def validate_hash_tb (target_bits : Nat) (hash : List Nat) : Bool :=
  validateGo 0 target_bits hash

/-- `pow::validate_hash` at the source's compile-time difficulty. -/
def validate_hash (hash : List Nat) : Bool :=
  validate_hash_tb TARGET_BITS hash

/-- Bit `j` of a byte list read big-endian-per-byte: bit 0 is the most
significant bit of byte 0. Bytes beyond the list are read as 0. -/
def hashBit (l : List Nat) (j : Nat) : Nat :=
  l.getD (j / 8) 0 / 2 ^ (7 - j % 8) % 2

lemma byte_top_bits (b : Nat) (hb : b < 256) :
    ∀ c, c ≤ 8 → (b / 2 ^ (8 - c) = 0 ↔ ∀ j < c, b / 2 ^ (7 - j) % 2 = 0) := by
  intro c
  induction c with
  | zero =>
    intro _
    simp only [Nat.sub_zero]
    constructor
    · intro _ j hj; omega
    · intro _
      have : (2 : Nat) ^ 8 = 256 := by norm_num
      apply Nat.div_eq_of_lt
      omega
  | succ c ih =>
    intro hc
    have hc8 : c ≤ 8 := Nat.le_of_succ_le hc
    have hsub : 8 - (c + 1) = 7 - c := by omega
    have hpos7 : 0 < (2 : Nat) ^ (7 - c) := Nat.pos_pow_of_pos _ (by norm_num)
    have hpos8 : 0 < (2 : Nat) ^ (8 - c) := Nat.pos_pow_of_pos _ (by norm_num)
    rw [hsub]
    constructor
    · intro h j hj
      have hb2 : b < 2 ^ (7 - c) := (Nat.div_eq_zero_iff hpos7).mp h
      have hle : 7 - c ≤ 7 - j := by omega
      have : b < 2 ^ (7 - j) := lt_of_lt_of_le hb2 (Nat.pow_le_pow_right (by norm_num) hle)
      rw [Nat.div_eq_of_lt this]
    · intro h
      have h1 : b / 2 ^ (8 - c) = 0 := by
        exact (ih hc8).mpr (fun j hj => h j (Nat.lt_succ_of_lt hj))
      have hbit : b / 2 ^ (7 - c) % 2 = 0 := h c (Nat.lt_succ_self c)
      have hb2 : b < 2 ^ (8 - c) := (Nat.div_eq_zero_iff hpos8).mp h1
      have hexp : (2 : Nat) ^ (8 - c) = 2 * 2 ^ (7 - c) := by
        have h87 : 8 - c = (7 - c) + 1 := by omega
        rw [h87, pow_succ]; ring
      have hb2m : b < 2 ^ (7 - c) * 2 := by omega
      have hlt2 : b / 2 ^ (7 - c) < 2 := Nat.div_lt_of_lt_mul hb2m
      have hz : b / 2 ^ (7 - c) = 0 := by
        have hle1 : b / 2 ^ (7 - c) ≤ 1 := Nat.lt_succ_iff.mp hlt2
        rcases Nat.le_one_iff_eq_zero_or_eq_one.mp hle1 with h0 | h1
        · exact h0
        · rw [h1] at hbit
          norm_num at hbit
      exact Nat.div_eq_of_lt ((Nat.div_eq_zero_iff hpos7).mp hz)

lemma hashBit_cons_small (b : Nat) (rest : List Nat) (j : Nat) (hj : j < 8) :
    hashBit (b :: rest) j = b / 2 ^ (7 - j) % 2 := by
  unfold hashBit
  have h1 : j / 8 = 0 := Nat.div_eq_of_lt hj
  have h2 : j % 8 = j := Nat.mod_eq_of_lt hj
  rw [h1, h2]
  rfl

lemma hashBit_cons_big (b : Nat) (rest : List Nat) (j : Nat) :
    hashBit (b :: rest) (j + 8) = hashBit rest j := by
  unfold hashBit
  have h1 : (j + 8) / 8 = j / 8 + 1 := by omega
  have h2 : (j + 8) % 8 = j % 8 := by omega
  rw [h1, h2]
  rfl

lemma validateGo_iff (l : List Nat) (hl : WFBytes l) :
    ∀ count, (validateGo 0 count l = true ↔ ∀ j < count, hashBit l j = 0) := by
  induction l with
  | nil =>
    intro count
    simp [validateGo, hashBit]
  | cons b rest ih =>
    intro count
    have hb : b < 256 := hl b (List.mem_cons_self _ _)
    have hrest : WFBytes rest := fun x hx => hl x (List.mem_cons_of_mem _ hx)
    by_cases hc : 8 ≤ count
    · -- full-byte branch
      have hstep : validateGo 0 count (b :: rest) =
          if b ≠ 0 then false else validateGo b (count - 8) rest := by
        simp [validateGo, hc, Nat.zero_or]
      rw [hstep]
      by_cases hb0 : b = 0
      · subst hb0
        rw [if_neg (by simp)]
        rw [ih hrest (count - 8)]
        constructor
        · intro h j hj
          by_cases hj8 : j < 8
          · rw [hashBit_cons_small _ _ _ hj8]
            simp
          · obtain ⟨j', rfl⟩ : ∃ j', j = j' + 8 := ⟨j - 8, by omega⟩
            rw [hashBit_cons_big]
            exact h j' (by omega)
        · intro h j hj
          have := h (j + 8) (by omega)
          rwa [hashBit_cons_big] at this
      · rw [if_pos hb0]
        constructor
        · intro h; exact absurd h (by simp)
        · intro h
          exfalso
          -- some leading bit of b is nonzero, contradicting h
          have h8 : ∀ j < 8, b / 2 ^ (7 - j) % 2 = 0 := by
            intro j hj
            have := h j (by omega)
            rwa [hashBit_cons_small _ _ _ hj] at this
          have := (byte_top_bits b hb 8 (le_refl 8)).mpr h8
          simp only [Nat.sub_self, pow_zero, Nat.div_one] at this
          exact hb0 this
    · -- partial-byte branch: the loop stops after this byte
      push_neg at hc
      have hstep : validateGo 0 count (b :: rest) =
          decide ((if 0 < count then b >>> (8 - count) else 0) = 0) := by
        simp [validateGo, Nat.not_le.mpr hc, Nat.zero_or]
      rw [hstep]
      by_cases h0 : 0 < count
      · rw [if_pos h0]
        rw [Nat.shiftRight_eq_div_pow]
        rw [decide_eq_true_eq]
        rw [byte_top_bits b hb count (by omega)]
        constructor
        · intro h j hj
          rw [hashBit_cons_small _ _ _ (by omega)]
          exact h j hj
        · intro h j hj
          have := h j hj
          rwa [hashBit_cons_small _ _ _ (by omega)] at this
      · have hc0 : count = 0 := by omega
        subst hc0
        simp

/-- C3: for every 32-byte hash and every difficulty `target_bits ≤ 256`
(the hash width), `validate_hash` returns true iff the leading `target_bits`
bits of the hash are all zero. -/
theorem validate_hash_iff_leading_zeros (target_bits : Nat) (hash : List Nat)
    (_htb : target_bits ≤ 256) (_hlen : hash.length = 32) (hwf : WFBytes hash) :
    validate_hash_tb target_bits hash = true ↔ ∀ j < target_bits, hashBit hash j = 0 :=
  validateGo_iff hash hwf target_bits

/-- Witness for C3 at `target_bits = 8` and the hash `0, 255, 0, ..., 0`. -/
theorem validate_hash_iff_leading_zeros_witness :
    ((8 : Nat) ≤ 256 ∧ (0 :: 255 :: List.replicate 30 0).length = 32 ∧
      WFBytes (0 :: 255 :: List.replicate 30 0)) ∧
    (validate_hash_tb 8 (0 :: 255 :: List.replicate 30 0) = true ↔
      ∀ j < 8, hashBit (0 :: 255 :: List.replicate 30 0) j = 0) :=
  ⟨⟨by decide, by decide, by decide⟩,
    validate_hash_iff_leading_zeros 8 _ (by decide) (by decide) (by decide)⟩

/-! ## Proof-of-work search (`src/pow.rs::pow`) -/

/-- Little-endian byte encoding on `k` bytes (`u64::to_le_bytes` is `toLE 8`). -/
def toLE : Nat → Nat → List Nat
  | 0, _ => []
  | k + 1, n => n % 256 :: toLE k (n / 256)

/-- UTF-8 bytes of a string; all strings hashed by the source are ASCII, so
code points and bytes coincide. -/
def strBytes (s : String) : List Nat := s.toList.map Char.toNat

/-- `pow::hash_transactions`: one SHA-256 digest over the concatenation of all
transaction ids (sequential `update` calls). -/
def hash_transactions (env : Env) (transactions : List Transaction) : Hash :=
  env.sha (transactions.flatMap (·.id))

/-- The byte stream hashed by one `pow` attempt: the timestamp's decimal
string, the transactions digest, the previous hash when present, and the
nonce in 8 little-endian bytes. -/
def powMsg (env : Env) (timestamp : Nat) (transactions : List Transaction)
    (prev_block_hash : Option Hash) (nonce : Nat) : List Nat :=
  strBytes (toString timestamp) ++ hash_transactions env transactions ++
    (match prev_block_hash with
      | some h => h
      | none => []) ++
    toLE 8 nonce

/-- `u64::MAX`. -/
def U64_MAX : Nat := 2 ^ 64 - 1

/-- The candidate hash `pow` computes for a given nonce. -/
def powCand (env : Env) (timestamp : Nat) (transactions : List Transaction)
    (prev_block_hash : Option Hash) (nonce : Nat) : Hash :=
  env.sha (powMsg env timestamp transactions prev_block_hash nonce)

/-- The `pow` search loop with the number of remaining attempts explicit.
The Rust loop tries nonces `1, 2, ...`; after an unsuccessful attempt at
`u64::MAX` the `checked_add` overflows and the function panics (`none`), so
exactly `u64::MAX` attempts are possible. -/
def powGo (env : Env) (timestamp : Nat) (transactions : List Transaction)
    (prev_block_hash : Option Hash) : Nat → Nat → Option (Hash × Nat)
  | 0, _ => none
  | attempts + 1, nonce =>
    let hash := powCand env timestamp transactions prev_block_hash nonce
    if validate_hash hash then some (hash, nonce)
    else powGo env timestamp transactions prev_block_hash attempts (nonce + 1)

/-- `pow::pow`, starting at nonce 1; `none` models the
`panic!("Can not find validate hash")` on nonce overflow. -/
def pow (env : Env) (timestamp : Nat) (transactions : List Transaction)
    (prev_block_hash : Option Hash) : Option (Hash × Nat) :=
  powGo env timestamp transactions prev_block_hash U64_MAX 1

lemma powGo_eq_some (env : Env) (ts : Nat) (txs : List Transaction) (prev : Option Hash) :
    ∀ (k nonce : Nat) (h : Hash) (n : Nat),
      (powGo env ts txs prev k nonce = some (h, n) ↔
        nonce ≤ n ∧ n < nonce + k ∧ h = powCand env ts txs prev n ∧
        validate_hash (powCand env ts txs prev n) = true ∧
        ∀ m, nonce ≤ m → m < n → validate_hash (powCand env ts txs prev m) = false) := by
  intro k
  induction k with
  | zero =>
    intro nonce h n
    simp only [powGo]
    constructor
    · intro hcon; exact absurd hcon (by simp)
    · intro ⟨h1, h2, _⟩; omega
  | succ k ih =>
    intro nonce h n
    simp only [powGo]
    by_cases hv : validate_hash (powCand env ts txs prev nonce) = true
    · rw [if_pos hv]
      constructor
      · intro hsome
        have hpair := Option.some.inj hsome
        have hh : powCand env ts txs prev nonce = h := congrArg Prod.fst hpair
        have hn : nonce = n := congrArg Prod.snd hpair
        subst hn
        exact ⟨le_refl _, by omega, hh.symm, hh ▸ hv, fun m h1 h2 => absurd h1 (by omega)⟩
      · intro ⟨h1, h2, h3, h4, h5⟩
        have hn : n = nonce := by
          by_contra hne
          have := h5 nonce (le_refl _) (by omega)
          rw [this] at hv
          exact absurd hv (by simp)
        subst hn
        rw [h3]
    · rw [if_neg hv]
      rw [ih (nonce + 1) h n]
      have hvf : validate_hash (powCand env ts txs prev nonce) = false :=
        Bool.eq_false_iff.mpr hv
      constructor
      · intro ⟨h1, h2, h3, h4, h5⟩
        refine ⟨by omega, by omega, h3, h4, fun m hm1 hm2 => ?_⟩
        by_cases hm : m = nonce
        · subst hm; exact hvf
        · exact h5 m (by omega) hm2
      · intro ⟨h1, h2, h3, h4, h5⟩
        have hn : n ≠ nonce := fun he => by rw [he] at h4; rw [h4] at hvf; cases hvf
        exact ⟨by omega, by omega, h3, h4, fun m hm1 hm2 => h5 m (by omega) hm2⟩

lemma powGo_eq_none (env : Env) (ts : Nat) (txs : List Transaction) (prev : Option Hash) :
    ∀ (k nonce : Nat),
      (powGo env ts txs prev k nonce = none ↔
        ∀ m, nonce ≤ m → m < nonce + k → validate_hash (powCand env ts txs prev m) = false) := by
  intro k
  induction k with
  | zero =>
    intro nonce
    simp only [powGo]
    constructor
    · intro _ m h1 h2
      exact absurd h2 (by omega)
    · intro _
      trivial
  | succ k ih =>
    intro nonce
    simp only [powGo]
    by_cases hv : validate_hash (powCand env ts txs prev nonce) = true
    · rw [if_pos hv]
      constructor
      · intro hcon; exact absurd hcon (by simp)
      · intro hall
        have := hall nonce (le_refl _) (by omega)
        rw [this] at hv
        exact absurd hv (by simp)
    · rw [if_neg hv]
      rw [ih (nonce + 1)]
      have hvf : validate_hash (powCand env ts txs prev nonce) = false :=
        Bool.eq_false_iff.mpr hv
      constructor
      · intro hall m hm1 hm2
        by_cases hm : m = nonce
        · subst hm; exact hvf
        · exact hall m (by omega) (by omega)
      · intro hall m hm1 hm2
        exact hall m (by omega) (by omega)

/-- A concrete environment whose "SHA-256" always returns the all-zero
digest: every candidate hash validates, so `pow` succeeds at nonce 1. -/
def envZero : Env :=
  ⟨fun _ => List.replicate 32 0, id, fun s => strBytes s⟩

/-- A concrete environment whose "SHA-256" always returns a digest with a
leading 1 bit: no candidate hash ever validates. -/
def envOne : Env :=
  ⟨fun _ => 128 :: List.replicate 31 0, id, fun s => strBytes s⟩

/-- C2: whenever `pow` returns a `(hash, nonce)` pair, the hash validates and
equals the digest of the timestamp's decimal string, the transactions digest,
the previous hash when present, and the nonce in little-endian bytes — so
re-hashing the same `(timestamp, transactions, prev_hash, nonce)` reproduces
exactly the returned hash. -/
theorem pow_hash_valid_and_reproducible (env : Env) (timestamp : Nat)
    (transactions : List Transaction) (prev_block_hash : Option Hash)
    (h : Hash) (nonce : Nat)
    (hp : pow env timestamp transactions prev_block_hash = some (h, nonce)) :
    validate_hash h = true ∧
    h = env.sha (strBytes (toString timestamp) ++
          hash_transactions env transactions ++
          Option.elim prev_block_hash [] (fun ph => ph) ++
          toLE 8 nonce) := by
  have hc := (powGo_eq_some env timestamp transactions prev_block_hash
    U64_MAX 1 h nonce).mp hp
  obtain ⟨_, _, hh, hv, _⟩ := hc
  constructor
  · rw [hh]
    exact hv
  · rw [hh]
    unfold powCand powMsg
    cases prev_block_hash <;> rfl

/-- Witness for C2: with the all-zero digest environment, `pow` returns the
zero hash at nonce 1 and the conclusion holds there. -/
theorem pow_hash_valid_and_reproducible_witness :
    pow envZero 0 [] none = some (List.replicate 32 0, 1) ∧
    (validate_hash (List.replicate 32 0) = true ∧
      List.replicate 32 0 = envZero.sha (strBytes (toString (0 : Nat)) ++
        hash_transactions envZero [] ++ Option.elim (none : Option Hash) [] (fun ph => ph) ++
        toLE 8 1)) := by
  have hp : pow envZero 0 [] none = some (List.replicate 32 0, 1) := by
    apply (powGo_eq_some envZero 0 [] none U64_MAX 1 _ 1).mpr
    refine ⟨le_refl _, ?_, rfl, by decide, ?_⟩
    · show 1 < 1 + U64_MAX
      have : 0 < U64_MAX := by norm_num [U64_MAX]
      omega
    · intro m h1 h2
      exact absurd h2 (by omega)
  exact ⟨hp, pow_hash_valid_and_reproducible envZero 0 [] none _ 1 hp⟩

/-- C8: `pow` searches nonces upward from 1, so a returned nonce is the least
value in `[1, u64::MAX]` whose candidate hash validates, and `pow` panics
(returns no pair) exactly when no nonce in that range validates, i.e. when
incrementing the 64-bit nonce would overflow. -/
theorem pow_returns_least_nonce (env : Env) (timestamp : Nat)
    (transactions : List Transaction) (prev_block_hash : Option Hash) :
    (pow env timestamp transactions prev_block_hash = none ↔
      ∀ n, 1 ≤ n → n ≤ 2 ^ 64 - 1 →
        validate_hash (powCand env timestamp transactions prev_block_hash n) = false) ∧
    (∀ h nonce, pow env timestamp transactions prev_block_hash = some (h, nonce) →
      1 ≤ nonce ∧ nonce ≤ 2 ^ 64 - 1 ∧
      validate_hash (powCand env timestamp transactions prev_block_hash nonce) = true ∧
      ∀ m, 1 ≤ m → m < nonce →
        validate_hash (powCand env timestamp transactions prev_block_hash m) = false) := by
  constructor
  · rw [show pow env timestamp transactions prev_block_hash =
        powGo env timestamp transactions prev_block_hash U64_MAX 1 from rfl]
    rw [powGo_eq_none env timestamp transactions prev_block_hash U64_MAX 1]
    constructor
    · intro hall n h1 h2
      apply hall n h1
      show n < 1 + U64_MAX
      norm_num [U64_MAX] at h2 ⊢
      omega
    · intro hall n h1 h2
      apply hall n h1
      norm_num [U64_MAX] at h2 ⊢
      omega
  · intro h nonce hp
    have hc := (powGo_eq_some env timestamp transactions prev_block_hash
      U64_MAX 1 h nonce).mp hp
    obtain ⟨h1, h2, hh, hv, hmin⟩ := hc
    refine ⟨h1, ?_, hv, hmin⟩
    norm_num [U64_MAX] at h2 ⊢
    omega

/-- Witness for C8: the never-valid environment makes `pow` panic; the
always-valid environment returns nonce 1, vacuously least. -/
theorem pow_returns_least_nonce_witness :
    pow envOne 0 [] none = none ∧
    (1 ≤ 1 ∧ 1 ≤ 2 ^ 64 - 1 ∧
      validate_hash (powCand envZero 0 [] none 1) = true ∧
      ∀ m, 1 ≤ m → m < 1 → validate_hash (powCand envZero 0 [] none m) = false) := by
  constructor
  · apply (pow_returns_least_nonce envOne 0 [] none).1.mpr
    intro n _ _
    rfl
  · have hp : pow envZero 0 [] none = some (List.replicate 32 0, 1) := by
      apply (powGo_eq_some envZero 0 [] none U64_MAX 1 _ 1).mpr
      refine ⟨le_refl _, ?_, rfl, by decide, ?_⟩
      · show 1 < 1 + U64_MAX
        have : 0 < U64_MAX := by norm_num [U64_MAX]
        omega
      · intro m h1 h2
        exact absurd h2 (by omega)
    exact (pow_returns_least_nonce envZero 0 [] none).2 _ 1 hp

/-! ## Canonical byte encoding (bincode 2, `config::standard()`)

`Block::encode/decode` and `hash_transaction` delegate to bincode's derived
`Encode`/`Decode` with the standard configuration: little-endian,
variable-length integer encoding. The format for the concrete types here:
unsigned integers below 251 are one byte; otherwise a tag byte 251/252/253/254
followed by the value in 2/4/8/16 little-endian bytes; `usize` is encoded as
`u64`; `[u8; 32]` is 32 raw bytes with no length prefix; `Vec<T>` is the
length as a `u64` varint followed by the encoded elements; `Option<T>` is a
tag byte 0 (`None`) or 1 (`Some`) followed by the payload. -/

/-- Inverse of `toLE`: read a little-endian byte list as a number. -/
def fromLE : List Nat → Nat
  | [] => 0
  | b :: rest => b + 256 * fromLE rest

/-- Read `k` little-endian bytes. -/
def readLE (k : Nat) (l : List Nat) : Option (Nat × List Nat) :=
  if k ≤ l.length then some (fromLE (l.take k), l.drop k) else none

/-- Read `k` raw bytes (a fixed-size array such as `Hash`). -/
def readN (k : Nat) (l : List Nat) : Option (List Nat × List Nat) :=
  if k ≤ l.length then some (l.take k, l.drop k) else none

/-- bincode varint encoding of an unsigned integer (by value, up to `u128`). -/
def writeVarint (n : Nat) : List Nat :=
  if n < 251 then [n]
  else if n < 2 ^ 16 then 251 :: toLE 2 n
  else if n < 2 ^ 32 then 252 :: toLE 4 n
  else if n < 2 ^ 64 then 253 :: toLE 8 n
  else 254 :: toLE 16 n

/-- bincode varint decoding. -/
def readVarint : List Nat → Option (Nat × List Nat)
  | [] => none
  | b :: rest =>
    if b < 251 then some (b, rest)
    else if b = 251 then readLE 2 rest
    else if b = 252 then readLE 4 rest
    else if b = 253 then readLE 8 rest
    else if b = 254 then readLE 16 rest
    else none

/-- `Vec<u8>`: length varint followed by the raw bytes. -/
def encodeBytes (v : List Nat) : List Nat := writeVarint v.length ++ v

/-- Decode a `Vec<u8>`. -/
def readBytes (l : List Nat) : Option (List Nat × List Nat) :=
  (readVarint l).bind fun p => readN p.1 p.2

/-- `Option<T>`: tag byte then payload. -/
def encodeOpt (enc : α → List Nat) : Option α → List Nat
  | none => [0]
  | some x => 1 :: enc x

/-- Decode an `Option<T>`; a tag byte other than 0/1 is a decode error. -/
def readOpt (dec : List Nat → Option (α × List Nat)) : List Nat → Option (Option α × List Nat)
  | [] => none
  | b :: rest =>
    if b = 0 then some (none, rest)
    else if b = 1 then
      match dec rest with
      | none => none
      | some (x, r) => some (some x, r)
    else none

/-- `Vec<T>`: length varint followed by the encoded elements. -/
def encodeListWith (enc : α → List Nat) (l : List α) : List Nat :=
  writeVarint l.length ++ l.flatMap enc

/-- Decode exactly `k` consecutive elements. -/
def readCount (dec : List Nat → Option (α × List Nat)) : Nat → List Nat → Option (List α × List Nat)
  | 0, l => some ([], l)
  | k + 1, l =>
    (dec l).bind fun p =>
    (readCount dec k p.2).bind fun q =>
    some (p.1 :: q.1, q.2)

/-- Decode a `Vec<T>`. -/
def readListWith (dec : List Nat → Option (α × List Nat)) (l : List Nat) :
    Option (List α × List Nat) :=
  (readVarint l).bind fun p => readCount dec p.1 p.2

/-- Derived `Encode` for `TXInput` (fields in declaration order). -/
def TXInput.encode (txi : TXInput) : List Nat :=
  encodeOpt (fun h => h) txi.tx_id ++ encodeOpt writeVarint txi.v_out_idx ++
    encodeOpt encodeBytes txi.signature ++ encodeBytes txi.pub_key

/-- Derived `Decode` for `TXInput`. -/
def readTXInput (l : List Nat) : Option (TXInput × List Nat) :=
  (readOpt (readN 32) l).bind fun p1 =>
  (readOpt readVarint p1.2).bind fun p2 =>
  (readOpt readBytes p2.2).bind fun p3 =>
  (readBytes p3.2).bind fun p4 =>
  some (⟨p1.1, p2.1, p3.1, p4.1⟩, p4.2)

/-- Derived `Encode` for `TXOutput`. -/
def TXOutput.encode (txo : TXOutput) : List Nat :=
  writeVarint txo.value ++ encodeBytes txo.pub_key_hash

/-- Derived `Decode` for `TXOutput`. -/
def readTXOutput (l : List Nat) : Option (TXOutput × List Nat) :=
  (readVarint l).bind fun p1 =>
  (readBytes p1.2).bind fun p2 =>
  some (⟨p1.1, p2.1⟩, p2.2)

/-- Derived `Encode` for `Transaction`. -/
def Transaction.encode (tx : Transaction) : List Nat :=
  tx.id ++ encodeListWith TXInput.encode tx.v_in ++ encodeListWith TXOutput.encode tx.v_out

/-- Derived `Decode` for `Transaction`. -/
def readTransaction (l : List Nat) : Option (Transaction × List Nat) :=
  (readN 32 l).bind fun p1 =>
  (readListWith readTXInput p1.2).bind fun p2 =>
  (readListWith readTXOutput p2.2).bind fun p3 =>
  some (⟨p1.1, p2.1, p3.1⟩, p3.2)

/-- `Transaction::decode` through `bincode::decode_from_slice` (trailing bytes
are ignored; a decode failure is a panic, modelled by `none`). -/
def Transaction.decode (data : List Nat) : Option Transaction :=
  (readTransaction data).map (·.1)

/-- `hash_transaction(v_in, v_out)`: SHA-256 over the bincode encoding of the
inputs followed by the bincode encoding of the outputs. -/
def hash_transaction (env : Env) (v_in : List TXInput) (v_out : List TXOutput) : Hash :=
  env.sha (encodeListWith TXInput.encode v_in ++ encodeListWith TXOutput.encode v_out)

/-! ## Block (`src/block.rs`) -/

/-- `struct Block` from `src/block.rs`. -/
structure Block where
  timestamp : Nat
  transactions : List Transaction
  prev_block_hash : Option Hash
  hash : Hash
  nonce : Nat
deriving DecidableEq

/-- `Block::encode` (bincode derived `Encode`, fields in declaration order). -/
def Block.encode (b : Block) : List Nat :=
  writeVarint b.timestamp ++ encodeListWith Transaction.encode b.transactions ++
    encodeOpt (fun h => h) b.prev_block_hash ++ b.hash ++ writeVarint b.nonce

/-- Derived `Decode` for `Block`. -/
def readBlock (l : List Nat) : Option (Block × List Nat) :=
  (readVarint l).bind fun p1 =>
  (readListWith readTransaction p1.2).bind fun p2 =>
  (readOpt (readN 32) p2.2).bind fun p3 =>
  (readN 32 p3.2).bind fun p4 =>
  (readVarint p4.2).bind fun p5 =>
  some (⟨p1.1, p2.1, p3.1, p4.1, p5.1⟩, p5.2)

/-- `Block::decode` through `bincode::decode_from_slice` (trailing bytes are
ignored; a decode failure is a panic, modelled by `none`). -/
def Block.decode (data : List Nat) : Option Block :=
  (readBlock data).map (·.1)

/-! Well-formedness: the fields are representable machine values. -/

/-- Lift a predicate over `Option` (`none` is vacuously fine). -/
def WFOpt (P : α → Prop) : Option α → Prop
  | none => True
  | some x => P x

instance (P : α → Prop) [DecidablePred P] : (o : Option α) → Decidable (WFOpt P o)
  | none => Decidable.isTrue trivial
  | some x => inferInstanceAs (Decidable (P x))

/-- A vector whose length is a representable `usize`. -/
def WFVec (l : List α) : Prop := l.length < 2 ^ 64

instance (l : List α) : Decidable (WFVec l) := inferInstanceAs (Decidable (_ < _))

/-- Representable `Vec<u8>`. -/
def WFByteVec (l : List Nat) : Prop := WFBytes l ∧ WFVec l

instance (l : List Nat) : Decidable (WFByteVec l) := inferInstanceAs (Decidable (_ ∧ _))

/-- Representable `TXInput`. -/
def WFTXInput (txi : TXInput) : Prop :=
  WFOpt WFHash txi.tx_id ∧ WFOpt (fun i => i < 2 ^ 64) txi.v_out_idx ∧
    WFOpt WFByteVec txi.signature ∧ WFByteVec txi.pub_key

/-- Representable `TXOutput`. -/
def WFTXOutput (txo : TXOutput) : Prop :=
  txo.value < 2 ^ 64 ∧ WFByteVec txo.pub_key_hash

/-- Representable `Transaction`. -/
def WFTransaction (tx : Transaction) : Prop :=
  WFHash tx.id ∧ (∀ txi ∈ tx.v_in, WFTXInput txi) ∧ (∀ txo ∈ tx.v_out, WFTXOutput txo) ∧
    WFVec tx.v_in ∧ WFVec tx.v_out

/-- Representable `Block`. -/
def WFBlock (b : Block) : Prop :=
  b.timestamp < 2 ^ 128 ∧ (∀ tx ∈ b.transactions, WFTransaction tx) ∧
    WFOpt WFHash b.prev_block_hash ∧ WFHash b.hash ∧ b.nonce < 2 ^ 64 ∧
    WFVec b.transactions

instance : DecidablePred WFHash := fun h => inferInstanceAs (Decidable (_ ∧ _))

instance : DecidablePred WFTXInput := fun txi => inferInstanceAs (Decidable (_ ∧ _))

instance : DecidablePred WFTXOutput := fun txo => inferInstanceAs (Decidable (_ ∧ _))

instance : DecidablePred WFTransaction := fun tx => inferInstanceAs (Decidable (_ ∧ _))

instance : DecidablePred WFBlock := fun b => inferInstanceAs (Decidable (_ ∧ _))

lemma toLE_length (k : Nat) : ∀ n, (toLE k n).length = k := by
  induction k with
  | zero => intro n; rfl
  | succ k ih =>
    intro n
    simp only [toLE, List.length_cons, ih]

lemma fromLE_toLE (k : Nat) : ∀ n, n < 256 ^ k → fromLE (toLE k n) = n := by
  induction k with
  | zero =>
    intro n h
    simp only [pow_zero, Nat.lt_one_iff] at h
    subst h
    rfl
  | succ k ih =>
    intro n h
    have hdiv : n / 256 < 256 ^ k := by
      rw [Nat.div_lt_iff_lt_mul (by norm_num)]
      calc n < 256 ^ (k + 1) := h
        _ = 256 ^ k * 256 := by rw [pow_succ]
    simp only [toLE, fromLE, ih (n / 256) hdiv]
    omega

lemma readN_exact (h r : List Nat) (k : Nat) (hlen : h.length = k) :
    readN k (h ++ r) = some (h, r) := by
  subst hlen
  unfold readN
  rw [if_pos (by simp)]
  rw [List.take_left, List.drop_left]

lemma readLE_toLE (k n : Nat) (r : List Nat) (h : n < 256 ^ k) :
    readLE k (toLE k n ++ r) = some (n, r) := by
  unfold readLE
  have hlen : (toLE k n).length = k := toLE_length k n
  rw [if_pos (by simp [hlen])]
  rw [List.take_left' hlen, List.drop_left' hlen]
  rw [fromLE_toLE k n h]

lemma readVarint_writeVarint (n : Nat) (r : List Nat) (h : n < 2 ^ 128) :
    readVarint (writeVarint n ++ r) = some (n, r) := by
  unfold writeVarint
  by_cases h1 : n < 251
  · rw [if_pos h1]
    show readVarint (n :: r) = some (n, r)
    simp only [readVarint]
    rw [if_pos h1]
  · rw [if_neg h1]
    by_cases h2 : n < 2 ^ 16
    · rw [if_pos h2]
      show readVarint (251 :: (toLE 2 n ++ r)) = some (n, r)
      simp only [readVarint]
      rw [if_pos trivial]
      exact readLE_toLE 2 n r (by norm_num at h2 ⊢; omega)
    · rw [if_neg h2]
      by_cases h3 : n < 2 ^ 32
      · rw [if_pos h3]
        show readVarint (252 :: (toLE 4 n ++ r)) = some (n, r)
        simp only [readVarint]
        rw [if_pos trivial]
        exact readLE_toLE 4 n r (by norm_num at h3 ⊢; omega)
      · rw [if_neg h3]
        by_cases h4 : n < 2 ^ 64
        · rw [if_pos h4]
          show readVarint (253 :: (toLE 8 n ++ r)) = some (n, r)
          simp only [readVarint]
          rw [if_pos trivial]
          exact readLE_toLE 8 n r (by norm_num at h4 ⊢; omega)
        · rw [if_neg h4]
          show readVarint (254 :: (toLE 16 n ++ r)) = some (n, r)
          simp only [readVarint]
          rw [if_pos trivial]
          exact readLE_toLE 16 n r (by norm_num at h ⊢; omega)

lemma readBytes_encodeBytes (v r : List Nat) (hv : WFVec v) :
    readBytes (encodeBytes v ++ r) = some (v, r) := by
  unfold readBytes encodeBytes
  rw [List.append_assoc]
  rw [readVarint_writeVarint v.length (v ++ r) (lt_trans hv (by norm_num))]
  simp only [Option.some_bind]
  exact readN_exact v r v.length rfl

lemma readOpt_encodeOpt {α : Type} {P : α → Prop} {enc : α → List Nat}
    {dec : List Nat → Option (α × List Nat)}
    (hdec : ∀ x r, P x → dec (enc x ++ r) = some (x, r)) (o : Option α) (r : List Nat)
    (ho : WFOpt P o) : readOpt dec (encodeOpt enc o ++ r) = some (o, r) := by
  cases o with
  | none =>
    show readOpt dec (0 :: r) = some (none, r)
    simp only [readOpt]
    rw [if_pos trivial]
  | some x =>
    show readOpt dec (1 :: (enc x ++ r)) = some (some x, r)
    simp only [readOpt]
    rw [if_pos trivial, hdec x r ho]
    simp

lemma readCount_flatMap {α : Type} {P : α → Prop} {enc : α → List Nat}
    {dec : List Nat → Option (α × List Nat)}
    (hdec : ∀ x r, P x → dec (enc x ++ r) = some (x, r)) :
    ∀ (l : List α) (r : List Nat), (∀ x ∈ l, P x) →
      readCount dec l.length (l.flatMap enc ++ r) = some (l, r) := by
  intro l
  induction l with
  | nil =>
    intro r _
    rfl
  | cons x xs ih =>
    intro r hall
    show readCount dec (xs.length + 1) ((x :: xs).flatMap enc ++ r) = some (x :: xs, r)
    rw [List.flatMap_cons, List.append_assoc]
    simp only [readCount]
    rw [hdec x (xs.flatMap enc ++ r) (hall x (List.mem_cons_self _ _))]
    simp only [Option.some_bind]
    rw [ih r (fun y hy => hall y (List.mem_cons_of_mem _ hy))]
    simp

lemma readListWith_encodeListWith {α : Type} {P : α → Prop} {enc : α → List Nat}
    {dec : List Nat → Option (α × List Nat)}
    (hdec : ∀ x r, P x → dec (enc x ++ r) = some (x, r)) (l : List α) (r : List Nat)
    (hall : ∀ x ∈ l, P x) (hlen : WFVec l) :
    readListWith dec (encodeListWith enc l ++ r) = some (l, r) := by
  unfold readListWith encodeListWith
  rw [List.append_assoc]
  rw [readVarint_writeVarint l.length _ (lt_trans hlen (by norm_num))]
  simp only [Option.some_bind]
  exact readCount_flatMap hdec l r hall

lemma readTXInput_encode (txi : TXInput) (r : List Nat) (h : WFTXInput txi) :
    readTXInput (TXInput.encode txi ++ r) = some (txi, r) := by
  obtain ⟨h1, h2, h3, h4⟩ := h
  unfold TXInput.encode readTXInput
  simp only [List.append_assoc]
  rw [readOpt_encodeOpt (fun x r hx => readN_exact x r 32 hx.1) _ _ h1]
  simp only [Option.some_bind]
  rw [readOpt_encodeOpt
    (fun x r hx => readVarint_writeVarint x r (lt_trans hx (by norm_num))) _ _ h2]
  simp only [Option.some_bind]
  rw [readOpt_encodeOpt (fun x r hx => readBytes_encodeBytes x r hx.2) _ _ h3]
  simp only [Option.some_bind]
  rw [readBytes_encodeBytes _ _ h4.2]
  simp only [Option.some_bind]

lemma readTXOutput_encode (txo : TXOutput) (r : List Nat) (h : WFTXOutput txo) :
    readTXOutput (TXOutput.encode txo ++ r) = some (txo, r) := by
  obtain ⟨h1, h2⟩ := h
  unfold TXOutput.encode readTXOutput
  simp only [List.append_assoc]
  rw [readVarint_writeVarint _ _ (lt_trans h1 (by norm_num))]
  simp only [Option.some_bind]
  rw [readBytes_encodeBytes _ _ h2.2]
  simp only [Option.some_bind]

lemma readTransaction_encode (tx : Transaction) (r : List Nat) (h : WFTransaction tx) :
    readTransaction (Transaction.encode tx ++ r) = some (tx, r) := by
  obtain ⟨hid, hin, hout, hlin, hlout⟩ := h
  unfold Transaction.encode readTransaction
  simp only [List.append_assoc]
  rw [readN_exact _ _ 32 hid.1]
  simp only [Option.some_bind]
  rw [readListWith_encodeListWith (fun x r hx => readTXInput_encode x r hx) _ _ hin hlin]
  simp only [Option.some_bind]
  rw [readListWith_encodeListWith (fun x r hx => readTXOutput_encode x r hx) _ _ hout hlout]
  simp only [Option.some_bind]

lemma readBlock_encode (b : Block) (r : List Nat) (h : WFBlock b) :
    readBlock (Block.encode b ++ r) = some (b, r) := by
  obtain ⟨hts, htxs, hprev, hh, hnonce, hltxs⟩ := h
  unfold Block.encode readBlock
  simp only [List.append_assoc]
  rw [readVarint_writeVarint _ _ hts]
  simp only [Option.some_bind]
  rw [readListWith_encodeListWith (fun x r hx => readTransaction_encode x r hx) _ _ htxs hltxs]
  simp only [Option.some_bind]
  rw [readOpt_encodeOpt (fun x r hx => readN_exact x r 32 hx.1) _ _ hprev]
  simp only [Option.some_bind]
  rw [readN_exact _ _ 32 hh.1]
  simp only [Option.some_bind]
  rw [readVarint_writeVarint _ _ (lt_trans hnonce (by norm_num))]
  simp only [Option.some_bind]

/-- C4: encoding then decoding any representable Block yields the original
Block in all fields, and the same round-trip law holds for any representable
Transaction under the same canonical byte encoding. -/
theorem encode_decode_roundtrip (b : Block) (t : Transaction)
    (hb : WFBlock b) (ht : WFTransaction t) :
    Block.decode (Block.encode b) = some b ∧
    Transaction.decode (Transaction.encode t) = some t := by
  constructor
  · unfold Block.decode
    rw [show Block.encode b = Block.encode b ++ [] from (List.append_nil _).symm]
    rw [readBlock_encode b [] hb]
    rfl
  · unfold Transaction.decode
    rw [show Transaction.encode t = Transaction.encode t ++ [] from (List.append_nil _).symm]
    rw [readTransaction_encode t [] ht]
    rfl

/-- A concrete coinbase-shaped transaction for witnesses. -/
def cbTx : Transaction :=
  ⟨List.replicate 32 0, [⟨none, none, none, [65]⟩], [⟨50, [7]⟩]⟩

/-- A concrete block for witnesses. -/
def cbBlock : Block :=
  ⟨5, [cbTx], none, List.replicate 32 1, 1⟩

/-- Witness for C4 at a concrete block and transaction. -/
theorem encode_decode_roundtrip_witness :
    (WFBlock cbBlock ∧ WFTransaction cbTx) ∧
    (Block.decode (Block.encode cbBlock) = some cbBlock ∧
      Transaction.decode (Transaction.encode cbTx) = some cbTx) :=
  ⟨⟨by decide, by decide⟩, encode_decode_roundtrip cbBlock cbTx (by decide) (by decide)⟩

/-! ## The chain and its store (`src/block_chain.rs`)

The LevelDB store maps block hashes to encoded blocks; it is modelled as an
association list from `Hash` to `Block` where `put` prepends (a later `put`
of the same key shadows the earlier one, matching overwrite semantics).
The reserved latest-hash key `"l"` (one byte, disjoint from the 32-byte
block-hash keyspace) is modelled by the `tip` field, which `mine_block`
keeps equal to the stored pointer.

`Block::new` obtains its timestamp from the clock and its `(hash, nonce)`
pair from `pow`; both are passed as parameters here, since the claims about
the chain do not depend on their values, only on hashes being fresh (the
collision-freedom of SHA-256 appears as the `dbGet db h = none` side
condition of `Reachable.mined`). -/

/-- The block store. -/
def DBm := List (Hash × Block)

/-- `DB::get` followed by `Block::decode`. -/
def dbGet (db : DBm) (h : Hash) : Option Block :=
  (List.find? (fun p => decide (p.1 = h)) db).map (·.2)

/-- `DB::put` keyed by the block's own hash. -/
def dbPut (db : DBm) (b : Block) : DBm := (b.hash, b) :: db

/-- `struct BlockChain`: the tip hash and the store. -/
structure BlockChain where
  tip : Hash
  db : DBm

/-- `Block::new(transactions, prev_block_hash)` with the clock and `pow`
outputs as parameters. -/
def Block.mk_new (transactions : List Transaction) (prev_block_hash : Option Hash)
    (timestamp : Nat) (hash : Hash) (nonce : Nat) : Block :=
  ⟨timestamp, transactions, prev_block_hash, hash, nonce⟩

/-- `BlockChain::create(address)`: build the genesis block around the
coinbase transaction and store it. -/
def BlockChain.create (coinbase : Transaction) (timestamp : Nat) (hash : Hash)
    (nonce : Nat) : BlockChain :=
  let genesis := Block.mk_new [coinbase] none timestamp hash nonce
  ⟨genesis.hash, dbPut [] genesis⟩

/-- `BlockChain::mine_block(transactions)`: link a new block to the current
tip, store it, advance the tip. -/
def BlockChain.mine_block (bc : BlockChain) (transactions : List Transaction)
    (timestamp : Nat) (hash : Hash) (nonce : Nat) : BlockChain :=
  let new_block := Block.mk_new transactions (some bc.tip) timestamp hash nonce
  ⟨new_block.hash, dbPut bc.db new_block⟩

/-- The chains reachable by `create` followed by `mine_block` calls, together
with their blocks in tip-to-genesis order (the `spine`). The freshness side
condition `dbGet bc.db hash = none` states that the new block's `pow` hash
collides with no stored block's hash. -/
inductive Reachable : BlockChain → List Block → Prop
  | created (coinbase : Transaction) (timestamp : Nat) (hash : Hash) (nonce : Nat) :
      Reachable (BlockChain.create coinbase timestamp hash nonce)
        [Block.mk_new [coinbase] none timestamp hash nonce]
  | mined (bc : BlockChain) (spine : List Block) (transactions : List Transaction)
      (timestamp : Nat) (hash : Hash) (nonce : Nat) :
      Reachable bc spine → dbGet bc.db hash = none →
      Reachable (bc.mine_block transactions timestamp hash nonce)
        (Block.mk_new transactions (some bc.tip) timestamp hash nonce :: spine)

/-- `BlockChainIter::next` iterated with fuel: look up the current hash,
yield the block, move to its previous hash; a missing block or an absent
previous hash ends the sequence. For any chain whose block count is at most
`fuel` the fuel never runs out. -/
def iterChain (db : DBm) : Option Hash → Nat → List Block
  | _, 0 => []
  | none, _ => []
  | some h, fuel + 1 =>
    match dbGet db h with
    | none => []
    | some b => b :: iterChain db b.prev_block_hash fuel

/-- `BlockChain::iterate` over the chain, with enough fuel for every
reachable chain (one store entry per block). -/
def BlockChain.iterate (bc : BlockChain) : List Block :=
  iterChain bc.db (some bc.tip) bc.db.length

/-- Head hash of a spine. -/
def tipOf : List Block → Option Hash
  | [] => none
  | b :: _ => some b.hash

/-- The spine is linked tip-to-genesis: each block's previous hash is the
next block's hash, and the last block (genesis) has no previous hash. -/
def spineLinks : List Block → Prop
  | [] => True
  | [b] => b.prev_block_hash = none
  | b :: b2 :: rest => b.prev_block_hash = some b2.hash ∧ spineLinks (b2 :: rest)

lemma dbGet_cons (k : Hash) (b : Block) (db : DBm) (h : Hash) :
    dbGet ((k, b) :: db) h = if k = h then some b else dbGet db h := by
  unfold dbGet
  rw [List.find?_cons]
  by_cases hk : k = h
  · simp [hk]
  · simp [hk]

lemma reachable_inv (bc : BlockChain) (spine : List Block) (h : Reachable bc spine) :
    tipOf spine = some bc.tip ∧ (∀ b ∈ spine, dbGet bc.db b.hash = some b) ∧
      bc.db.length = spine.length ∧ spineLinks spine := by
  induction h with
  | created coinbase timestamp hash nonce =>
    refine ⟨rfl, ?_, rfl, rfl⟩
    intro b hb
    rw [List.mem_singleton] at hb
    subst hb
    show dbGet (dbPut [] _) _ = _
    unfold dbPut
    rw [dbGet_cons]
    simp
  | mined bc spine transactions timestamp hash nonce hreach hfresh ih =>
    obtain ⟨htip, hget, hlen, hlinks⟩ := ih
    refine ⟨rfl, ?_, ?_, ?_⟩
    · intro b hb
      rw [List.mem_cons] at hb
      show dbGet (dbPut bc.db _) _ = _
      unfold dbPut
      rcases hb with hb | hb
      · subst hb
        rw [dbGet_cons]
        simp [Block.mk_new]
      · have hne : b.hash ≠ hash := by
          intro he
          have := hget b hb
          rw [he, hfresh] at this
          cases this
        rw [dbGet_cons]
        rw [if_neg (fun he => hne he.symm)]
        exact hget b hb
    · show (dbPut bc.db _).length = _
      unfold dbPut
      simp [hlen]
    · cases spine with
      | nil => cases htip
      | cons b2 rest =>
        refine ⟨?_, hlinks⟩
        show some bc.tip = some b2.hash
        unfold tipOf at htip
        exact htip.symm

lemma iterChain_none (db : DBm) (hh : Hash) (fuel : Nat) (h : dbGet db hh = none) :
    iterChain db (some hh) fuel = [] := by
  cases fuel with
  | zero => rfl
  | succ f =>
    unfold iterChain
    rw [h]

lemma iterChain_spine (db : DBm) : ∀ (spine : List Block) (tip : Hash),
    tipOf spine = some tip → (∀ b ∈ spine, dbGet db b.hash = some b) → spineLinks spine →
    ∀ fuel, spine.length ≤ fuel → iterChain db (some tip) fuel = spine := by
  intro spine
  induction spine with
  | nil => intro tip htip; cases htip
  | cons b rest ih =>
    intro tip htip hget hlinks fuel hfuel
    have htipb : tip = b.hash := by
      unfold tipOf at htip
      exact (Option.some.inj htip).symm
    subst htipb
    cases fuel with
    | zero => simp at hfuel
    | succ f =>
      unfold iterChain
      rw [hget b (List.mem_cons_self _ _)]
      cases rest with
      | nil =>
        have hprev : b.prev_block_hash = none := hlinks
        show b :: iterChain db b.prev_block_hash f = [b]
        rw [hprev]
        cases f <;> rfl
      | cons b2 rest2 =>
        obtain ⟨hprev, hlinks2⟩ := hlinks
        show b :: iterChain db b.prev_block_hash f = b :: b2 :: rest2
        rw [hprev]
        rw [ih b2.hash rfl (fun x hx => hget x (List.mem_cons_of_mem _ hx)) hlinks2 f
          (by simp at hfuel ⊢; omega)]

lemma spineLinks_getLast (spine : List Block) (hne : spine ≠ []) (hlinks : spineLinks spine) :
    ∃ g, spine.getLast? = some g ∧ g.prev_block_hash = none := by
  induction spine with
  | nil => cases hne rfl
  | cons b rest ih =>
    cases rest with
    | nil => exact ⟨b, rfl, hlinks⟩
    | cons b2 rest2 =>
      obtain ⟨hprev, hlinks2⟩ := hlinks
      obtain ⟨g, hg1, hg2⟩ := ih (by simp) hlinks2
      refine ⟨g, ?_, hg2⟩
      rw [List.getLast?_cons_cons]
      exact hg1

/-- C7: for every chain built by `create` and `mine_block` calls, iterating
from the tip yields exactly the chain's blocks in tip-to-genesis order,
ending after the block whose previous hash is none; and from a hash whose
block is missing in the store, the sequence ends immediately rather than
failing. -/
theorem iterate_chain_yields_blocks (bc : BlockChain) (spine : List Block)
    (h : Reachable bc spine) :
    (bc.iterate = spine ∧ bc.iterate.length = spine.length ∧
      ∃ g, bc.iterate.getLast? = some g ∧ g.prev_block_hash = none) ∧
    ∀ (db : DBm) (hh : Hash) (fuel : Nat), dbGet db hh = none →
      iterChain db (some hh) fuel = [] := by
  obtain ⟨htip, hget, hlen, hlinks⟩ := reachable_inv bc spine h
  have hiter : bc.iterate = spine := by
    unfold BlockChain.iterate
    exact iterChain_spine bc.db spine bc.tip htip hget hlinks bc.db.length (le_of_eq hlen.symm)
  refine ⟨⟨hiter, by rw [hiter], ?_⟩, fun db hh fuel hmiss => iterChain_none db hh fuel hmiss⟩
  rw [hiter]
  have hne : spine ≠ [] := by
    intro he
    rw [he] at htip
    cases htip
  exact spineLinks_getLast spine hne hlinks

/-- Genesis hash for the concrete witness chain. -/
def hashG : Hash := List.replicate 32 1

/-- Second block hash for the concrete witness chain. -/
def hashB2 : Hash := List.replicate 32 2

/-- Concrete two-block chain: create, then mine one block. -/
def bcW : BlockChain :=
  (BlockChain.create cbTx 5 hashG 1).mine_block [cbTx] 6 hashB2 1

/-- The blocks of `bcW`, tip first. -/
def spineW : List Block :=
  [Block.mk_new [cbTx] (some hashG) 6 hashB2 1, Block.mk_new [cbTx] none 5 hashG 1]

/-- Witness for C7 on the concrete two-block chain. -/
theorem iterate_chain_yields_blocks_witness :
    Reachable bcW spineW ∧
    ((bcW.iterate = spineW ∧ bcW.iterate.length = spineW.length ∧
      ∃ g, bcW.iterate.getLast? = some g ∧ g.prev_block_hash = none) ∧
    ∀ (db : DBm) (hh : Hash) (fuel : Nat), dbGet db hh = none →
      iterChain db (some hh) fuel = []) := by
  have hr : Reachable bcW spineW :=
    Reachable.mined _ _ [cbTx] 6 hashB2 1 (Reachable.created cbTx 5 hashG 1) (by decide)
  exact ⟨hr, iterate_chain_yields_blocks bcW spineW hr⟩

/-! ## UTXO derivation (`BlockChain::find_utxo`) -/

/-- `type UTXO = HashMap<Hash, Vec<(Rc<TXOutput>, usize)>>`, as an
association list (iteration order of the model: insertion order). -/
abbrev UTXO := List (Hash × List (TXOutput × Nat))

/-- The spent-output map `stxo: HashMap<Hash, HashSet<usize>>`. -/
abbrev STXO := List (Hash × List Nat)

/-- The `HashMap::entry` update both maps use: push the value onto the
existing entry for `t`, or add a new singleton entry. -/
def entryAdd {β : Type} (t : Hash) (x : β) : List (Hash × List β) → List (Hash × List β)
  | [] => [(t, [x])]
  | e :: rest => if e.1 = t then (e.1, e.2 ++ [x]) :: rest else e :: entryAdd t x rest

/-- `utxo.entry(t)`: push the collected pair. -/
def utxoAdd (u : UTXO) (t : Hash) (p : TXOutput × Nat) : UTXO := entryAdd t p u

/-- `stxo.entry(t)`: insert the spent index. -/
def stxoAdd (s : STXO) (t : Hash) (i : Nat) : STXO := entryAdd t i s

/-- `stxo.get(&t).map(|set| set.contains(&i))`. -/
def stxoContains (s : STXO) (t : Hash) (i : Nat) : Bool :=
  match List.find? (fun e => decide (e.1 = t)) s with
  | none => false
  | some e => decide (i ∈ e.2)

/-- The output loop of `find_utxo` for one transaction: each enumerated
output that is not already marked spent and is locked with the key is
collected. -/
def scanOutputs (pkh : List Nat) (tid : Hash) (stxo : STXO) :
    UTXO → List (Nat × TXOutput) → UTXO
  | u, [] => u
  | u, (i, txo) :: rest =>
    let is_spent := stxoContains stxo tid i
    let can_unlock := txo.is_locking_with_key pkh
    scanOutputs pkh tid stxo (if !is_spent && can_unlock then utxoAdd u tid (txo, i) else u) rest

/-- The input loop of `find_utxo` for one non-coinbase transaction: each
input that unlocks with the key records its referenced output as spent;
`none` models the `unwrap` panics on a missing referenced field
(`v_out_idx` is unwrapped first, as in the source). -/
def scanInputs (env : Env) (pkh : List Nat) : STXO → List TXInput → Option STXO
  | stxo, [] => some stxo
  | stxo, txi :: rest =>
    if txi.use_key env pkh then
      match txi.v_out_idx with
      | none => none
      | some out_idx =>
        match txi.tx_id with
        | none => none
        | some t => scanInputs env pkh (stxoAdd stxo t out_idx) rest
    else scanInputs env pkh stxo rest

/-- One transaction of the `find_utxo` scan: outputs first, then (unless it
is a coinbase transaction) inputs. -/
def processTx (env : Env) (pkh : List Nat) (st : UTXO × STXO) (tx : Transaction) :
    Option (UTXO × STXO) :=
  let u2 := scanOutputs pkh tx.id st.2 st.1 tx.v_out.enum
  if tx.is_coinbase_tx then some (u2, st.2)
  else (scanInputs env pkh st.2 tx.v_in).map fun s2 => (u2, s2)

/-- The full `find_utxo` scan over a transaction list. -/
def scanTxs (env : Env) (pkh : List Nat) : UTXO × STXO → List Transaction → Option (UTXO × STXO)
  | st, [] => some st
  | st, tx :: rest =>
    match processTx env pkh st tx with
    | none => none
    | some st2 => scanTxs env pkh st2 rest

/-- `BlockChain::find_utxo(pub_key_hash)`: iterate the chain from the tip and
scan every transaction; the nested block/transaction loops are one pass over
the flattened transaction list in iteration order. -/
def BlockChain.find_utxo (env : Env) (bc : BlockChain) (pkh : List Nat) : Option UTXO :=
  (scanTxs env pkh ([], []) (bc.iterate.flatMap (·.transactions))).map (·.1)

/-- Membership of a value under key `t` in either accumulator map. -/
def entryMem {β : Type} (s : List (Hash × List β)) (t : Hash) (x : β) : Prop :=
  ∃ e ∈ s, e.1 = t ∧ x ∈ e.2

instance {β : Type} [DecidableEq β] (s : List (Hash × List β)) (t : Hash) (x : β) :
    Decidable (entryMem s t x) :=
  List.decidableBEx _ s

/-- Membership of `(output, index)` under transaction id `t` in a UTXO map. -/
def utxoMem (u : UTXO) (t : Hash) (p : TXOutput × Nat) : Prop := entryMem u t p

instance (u : UTXO) (t : Hash) (p : TXOutput × Nat) : Decidable (utxoMem u t p) :=
  inferInstanceAs (Decidable (entryMem u t p))

/-- Membership of a spent index in the spent-output map. -/
def stxoMem (s : STXO) (t : Hash) (i : Nat) : Prop := entryMem s t i

instance (s : STXO) (t : Hash) (i : Nat) : Decidable (stxoMem s t i) :=
  inferInstanceAs (Decidable (entryMem s t i))

/-- Some transaction in `txs` has an input that unlocks with `pkh` and
references output `i` of transaction id `t` (and is scanned, i.e. its
transaction is not a coinbase). -/
def spendsIn (env : Env) (pkh : List Nat) (txs : List Transaction) (t : Hash) (i : Nat) : Prop :=
  ∃ tx ∈ txs, tx.is_coinbase_tx = false ∧ ∃ txi ∈ tx.v_in,
    txi.use_key env pkh = true ∧ txi.tx_id = some t ∧ txi.v_out_idx = some i

instance (env : Env) (pkh : List Nat) (txs : List Transaction) (t : Hash) (i : Nat) :
    Decidable (spendsIn env pkh txs t i) :=
  List.decidableBEx _ txs

/-- The keys of an association list are distinct. -/
def keysNodup (s : List (Hash × α)) : Prop := (s.map Prod.fst).Nodup

lemma entryMem_cons {β : Type} (e : Hash × List β) (s : List (Hash × List β)) (t : Hash) (x : β) :
    entryMem (e :: s) t x ↔ (e.1 = t ∧ x ∈ e.2) ∨ entryMem s t x := by
  unfold entryMem
  constructor
  · intro ⟨e2, he2, hp⟩
    rw [List.mem_cons] at he2
    rcases he2 with he2 | he2
    · subst he2; exact Or.inl hp
    · exact Or.inr ⟨e2, he2, hp⟩
  · intro h
    rcases h with hp | ⟨e2, he2, hp⟩
    · exact ⟨e, List.mem_cons_self _ _, hp⟩
    · exact ⟨e2, List.mem_cons_of_mem _ he2, hp⟩

lemma entryMem_nil {β : Type} (t : Hash) (x : β) : ¬ entryMem ([] : List (Hash × List β)) t x := by
  intro ⟨e, he, _⟩
  cases he

lemma entryAdd_mem {β : Type} (t : Hash) (x : β) :
    ∀ (s : List (Hash × List β)) (t' : Hash) (x' : β),
      entryMem (entryAdd t x s) t' x' ↔ entryMem s t' x' ∨ (t' = t ∧ x' = x) := by
  intro s
  induction s with
  | nil =>
    intro t' x'
    show entryMem [(t, [x])] t' x' ↔ _
    rw [entryMem_cons]
    simp only [List.mem_singleton]
    constructor
    · intro h
      rcases h with ⟨h1, h2⟩ | h
      · exact Or.inr ⟨h1.symm, h2⟩
      · exact absurd h (entryMem_nil _ _)
    · intro h
      rcases h with h | ⟨h1, h2⟩
      · exact absurd h (entryMem_nil _ _)
      · exact Or.inl ⟨h1.symm, h2⟩
  | cons e rest ih =>
    intro t' x'
    unfold entryAdd
    by_cases he : e.1 = t
    · rw [if_pos he]
      rw [entryMem_cons, entryMem_cons]
      simp only [List.mem_append, List.mem_singleton]
      constructor
      · intro h
        rcases h with ⟨h1, h2 | h2⟩ | h
        · exact Or.inl (Or.inl ⟨h1, h2⟩)
        · exact Or.inr ⟨by rw [← h1, he], h2⟩
        · exact Or.inl (Or.inr h)
      · intro h
        rcases h with (⟨h1, h2⟩ | h) | ⟨h1, h2⟩
        · exact Or.inl ⟨h1, Or.inl h2⟩
        · exact Or.inr h
        · exact Or.inl ⟨by rw [he, ← h1], Or.inr h2⟩
    · rw [if_neg he]
      rw [entryMem_cons, entryMem_cons, ih t' x']
      tauto

lemma entryAdd_keysNodup {β : Type} (t : Hash) (x : β) :
    ∀ (s : List (Hash × List β)), keysNodup s → keysNodup (entryAdd t x s) := by
  intro s
  induction s with
  | nil =>
    intro _
    show keysNodup [(t, [x])]
    unfold keysNodup
    simp
  | cons e rest ih =>
    intro hnd
    unfold keysNodup at hnd
    rw [List.map_cons, List.nodup_cons] at hnd
    obtain ⟨hne, hnd2⟩ := hnd
    unfold entryAdd
    by_cases he : e.1 = t
    · rw [if_pos he]
      unfold keysNodup
      rw [List.map_cons, List.nodup_cons]
      exact ⟨hne, hnd2⟩
    · rw [if_neg he]
      unfold keysNodup
      rw [List.map_cons, List.nodup_cons]
      refine ⟨?_, ih hnd2⟩
      intro hmem
      -- e.1 appears among the keys after adding (t, ...); since e.1 ≠ t it
      -- must already be a key of rest
      have hkeys : ∀ (l : List (Hash × List β)) (k : Hash), k ≠ t →
          k ∈ (entryAdd t x l).map Prod.fst → k ∈ l.map Prod.fst := by
        intro l
        induction l with
        | nil =>
          intro k hk hm
          unfold entryAdd at hm
          simp at hm
          exact absurd hm hk
        | cons e2 rest2 ih2 =>
          intro k hk hm
          unfold entryAdd at hm
          by_cases he2 : e2.1 = t
          · rw [if_pos he2] at hm
            simpa using hm
          · rw [if_neg he2] at hm
            rw [List.map_cons, List.mem_cons] at hm
            rcases hm with hm | hm
            · rw [List.map_cons, List.mem_cons]
              exact Or.inl hm
            · rw [List.map_cons, List.mem_cons]
              exact Or.inr (ih2 k hk hm)
      have : e.1 ∈ rest.map Prod.fst := hkeys rest e.1 he hmem
      exact hne this

lemma entryMem_key {β : Type} (s : List (Hash × List β)) (t : Hash) (x : β)
    (h : entryMem s t x) : t ∈ s.map Prod.fst := by
  obtain ⟨e, he, h1, _⟩ := h
  rw [← h1]
  exact List.mem_map_of_mem _ he

lemma stxoContains_iff (t : Hash) (i : Nat) :
    ∀ (s : STXO), keysNodup s → (stxoContains s t i = true ↔ stxoMem s t i) := by
  intro s
  induction s with
  | nil =>
    intro _
    unfold stxoContains stxoMem
    simp only [List.find?_nil]
    constructor
    · intro h; cases h
    · intro h; exact absurd h (entryMem_nil _ _)
  | cons e rest ih =>
    intro hnd
    unfold keysNodup at hnd
    rw [List.map_cons, List.nodup_cons] at hnd
    obtain ⟨hne, hnd2⟩ := hnd
    unfold stxoContains
    rw [List.find?_cons]
    by_cases he : e.1 = t
    · have hdec : (decide (e.1 = t)) = true := by
        rw [decide_eq_true_eq]
        exact he
      rw [hdec]
      show (decide (i ∈ e.2)) = true ↔ stxoMem (e :: rest) t i
      rw [decide_eq_true_eq]
      unfold stxoMem
      rw [entryMem_cons]
      constructor
      · intro h
        exact Or.inl ⟨he, h⟩
      · intro h
        rcases h with ⟨_, h2⟩ | h
        · exact h2
        · exfalso
          have := entryMem_key rest t i h
          rw [← he] at this
          exact hne this
    · have hdec : (decide (e.1 = t)) = false := by
        rw [decide_eq_false_iff_not]
        exact he
      rw [hdec]
      show stxoContains rest t i = true ↔ stxoMem (e :: rest) t i
      unfold stxoMem
      rw [entryMem_cons]
      rw [ih hnd2]
      unfold stxoMem
      constructor
      · intro h
        exact Or.inr h
      · intro h
        rcases h with ⟨h1, _⟩ | h
        · exact absurd h1 he
        · exact h

lemma scanOutputs_mem (pkh : List Nat) (tid : Hash) (stxo : STXO) :
    ∀ (L : List (Nat × TXOutput)) (u : UTXO) (t : Hash) (p : TXOutput × Nat),
      utxoMem (scanOutputs pkh tid stxo u L) t p ↔
        utxoMem u t p ∨ (t = tid ∧ ∃ pr ∈ L, p = (pr.2, pr.1) ∧
          stxoContains stxo tid pr.1 = false ∧ pr.2.is_locking_with_key pkh = true) := by
  intro L
  induction L with
  | nil =>
    intro u t p
    unfold scanOutputs
    simp
  | cons ip rest ih =>
    intro u t p
    obtain ⟨i, txo⟩ := ip
    show utxoMem (scanOutputs pkh tid stxo
        (if !stxoContains stxo tid i && txo.is_locking_with_key pkh then
          utxoAdd u tid (txo, i) else u) rest) t p ↔ _
    rw [ih]
    by_cases hc : (!stxoContains stxo tid i && txo.is_locking_with_key pkh) = true
    · rw [if_pos hc]
      rw [Bool.and_eq_true, Bool.not_eq_true'] at hc
      obtain ⟨hspent, hlock⟩ := hc
      show utxoMem (utxoAdd u tid (txo, i)) t p ∨ _ ↔ _
      unfold utxoMem utxoAdd
      rw [entryAdd_mem]
      constructor
      · intro h
        rcases h with (h | ⟨h1, h2⟩) | ⟨h1, h2⟩
        · exact Or.inl h
        · exact Or.inr ⟨h1, (i, txo), List.mem_cons_self _ _, h2, hspent, hlock⟩
        · obtain ⟨pr, hpr, hp, hsc, hl⟩ := h2
          exact Or.inr ⟨h1, pr, List.mem_cons_of_mem _ hpr, hp, hsc, hl⟩
      · intro h
        rcases h with h | ⟨h1, pr, hpr, hp, hsc, hl⟩
        · exact Or.inl (Or.inl h)
        · rw [List.mem_cons] at hpr
          rcases hpr with hpr | hpr
          · subst hpr
            exact Or.inl (Or.inr ⟨h1, hp⟩)
          · exact Or.inr ⟨h1, pr, hpr, hp, hsc, hl⟩
    · rw [if_neg hc]
      rw [Bool.and_eq_true, Bool.not_eq_true'] at hc
      push_neg at hc
      constructor
      · intro h
        rcases h with h | ⟨h1, pr, hpr, hp, hsc, hl⟩
        · exact Or.inl h
        · exact Or.inr ⟨h1, pr, List.mem_cons_of_mem _ hpr, hp, hsc, hl⟩
      · intro h
        rcases h with h | ⟨h1, pr, hpr, hp, hsc, hl⟩
        · exact Or.inl h
        · rw [List.mem_cons] at hpr
          rcases hpr with hpr | hpr
          · subst hpr
            exact absurd hl (hc hsc)
          · exact Or.inr ⟨h1, pr, hpr, hp, hsc, hl⟩

lemma scanInputs_some (env : Env) (pkh : List Nat) :
    ∀ (ins : List TXInput) (s s2 : STXO),
      scanInputs env pkh s ins = some s2 →
      (keysNodup s → keysNodup s2) ∧
      ∀ t i, (stxoMem s2 t i ↔ stxoMem s t i ∨
        ∃ txi ∈ ins, txi.use_key env pkh = true ∧ txi.tx_id = some t ∧
          txi.v_out_idx = some i) := by
  intro ins
  induction ins with
  | nil =>
    intro s s2 h
    have hs : s = s2 := Option.some.inj h
    subst hs
    refine ⟨id, fun t i => ?_⟩
    constructor
    · intro h2; exact Or.inl h2
    · intro h2
      rcases h2 with h2 | ⟨txi, htxi, _⟩
      · exact h2
      · cases htxi
  | cons txi rest ih =>
    intro s s2 h
    by_cases hu : txi.use_key env pkh = true
    · rw [show scanInputs env pkh s (txi :: rest) =
          (if txi.use_key env pkh then
            match txi.v_out_idx with
            | none => none
            | some out_idx =>
              match txi.tx_id with
              | none => none
              | some t => scanInputs env pkh (stxoAdd s t out_idx) rest
          else scanInputs env pkh s rest) from rfl, if_pos hu] at h
      cases hidx : txi.v_out_idx with
      | none => rw [hidx] at h; cases h
      | some oi =>
        rw [hidx] at h
        cases htid : txi.tx_id with
        | none => rw [htid] at h; cases h
        | some t0 =>
          rw [htid] at h
          obtain ⟨hnd, hmem⟩ := ih (stxoAdd s t0 oi) s2 h
          refine ⟨fun hs => hnd (entryAdd_keysNodup t0 oi s hs), fun t i => ?_⟩
          rw [hmem t i]
          show stxoMem (entryAdd t0 oi s) t i ∨ _ ↔ _
          unfold stxoMem
          rw [entryAdd_mem]
          constructor
          · intro hcase
            rcases hcase with (hcase | ⟨h1, h2⟩) | ⟨txi2, htxi2, hprops⟩
            · exact Or.inl hcase
            · subst h1; subst h2
              exact Or.inr ⟨txi, List.mem_cons_self _ _, hu, htid, hidx⟩
            · exact Or.inr ⟨txi2, List.mem_cons_of_mem _ htxi2, hprops⟩
          · intro hcase
            rcases hcase with hcase | ⟨txi2, htxi2, hp1, hp2, hp3⟩
            · exact Or.inl (Or.inl hcase)
            · rw [List.mem_cons] at htxi2
              rcases htxi2 with htxi2 | htxi2
              · subst htxi2
                rw [htid] at hp2
                rw [hidx] at hp3
                exact Or.inl (Or.inr ⟨(Option.some.inj hp2).symm,
                  (Option.some.inj hp3).symm⟩)
              · exact Or.inr ⟨txi2, htxi2, hp1, hp2, hp3⟩
    · rw [show scanInputs env pkh s (txi :: rest) =
          (if txi.use_key env pkh then
            match txi.v_out_idx with
            | none => none
            | some out_idx =>
              match txi.tx_id with
              | none => none
              | some t => scanInputs env pkh (stxoAdd s t out_idx) rest
          else scanInputs env pkh s rest) from rfl,
        if_neg hu] at h
      obtain ⟨hnd, hmem⟩ := ih s s2 h
      refine ⟨hnd, fun t i => ?_⟩
      rw [hmem t i]
      constructor
      · intro hcase
        rcases hcase with hcase | ⟨txi2, htxi2, hprops⟩
        · exact Or.inl hcase
        · exact Or.inr ⟨txi2, List.mem_cons_of_mem _ htxi2, hprops⟩
      · intro hcase
        rcases hcase with hcase | ⟨txi2, htxi2, hp1, hp2, hp3⟩
        · exact Or.inl hcase
        · rw [List.mem_cons] at htxi2
          rcases htxi2 with htxi2 | htxi2
          · subst htxi2
            exact absurd hp1 hu
          · exact Or.inr ⟨txi2, htxi2, hp1, hp2, hp3⟩

lemma scanInputs_total (env : Env) (pkh : List Nat) :
    ∀ (ins : List TXInput) (s : STXO),
      (∀ txi ∈ ins, (∃ t, txi.tx_id = some t) ∧ ∃ i, txi.v_out_idx = some i) →
      ∃ s2, scanInputs env pkh s ins = some s2 := by
  intro ins
  induction ins with
  | nil =>
    intro s _
    exact ⟨s, rfl⟩
  | cons txi rest ih =>
    intro s hall
    obtain ⟨⟨t0, ht0⟩, ⟨i0, hi0⟩⟩ := hall txi (List.mem_cons_self _ _)
    have hrest : ∀ txi2 ∈ rest, (∃ t, txi2.tx_id = some t) ∧ ∃ i, txi2.v_out_idx = some i :=
      fun txi2 h2 => hall txi2 (List.mem_cons_of_mem _ h2)
    show ∃ s2, (if txi.use_key env pkh then
        match txi.v_out_idx with
        | none => none
        | some out_idx =>
          match txi.tx_id with
          | none => none
          | some t => scanInputs env pkh (stxoAdd s t out_idx) rest
        else scanInputs env pkh s rest) = some s2
    by_cases hu : txi.use_key env pkh = true
    · rw [if_pos hu, hi0, ht0]
      exact ih (stxoAdd s t0 i0) hrest
    · rw [if_neg hu]
      exact ih s hrest

lemma spendsIn_nil (env : Env) (pkh : List Nat) (t : Hash) (i : Nat) :
    ¬ spendsIn env pkh [] t i := by
  intro ⟨tx, htx, _⟩
  cases htx

lemma spendsIn_append (env : Env) (pkh : List Nat) (A B : List Transaction) (t : Hash) (i : Nat) :
    spendsIn env pkh (A ++ B) t i ↔ spendsIn env pkh A t i ∨ spendsIn env pkh B t i := by
  unfold spendsIn
  constructor
  · intro ⟨tx, htx, hrest⟩
    rw [List.mem_append] at htx
    rcases htx with h | h
    · exact Or.inl ⟨tx, h, hrest⟩
    · exact Or.inr ⟨tx, h, hrest⟩
  · intro h
    rcases h with ⟨tx, htx, hrest⟩ | ⟨tx, htx, hrest⟩
    · exact ⟨tx, List.mem_append_left _ htx, hrest⟩
    · exact ⟨tx, List.mem_append_right _ htx, hrest⟩

lemma spendsIn_single (env : Env) (pkh : List Nat) (T : Transaction) (t : Hash) (i : Nat) :
    spendsIn env pkh [T] t i ↔ T.is_coinbase_tx = false ∧ ∃ txi ∈ T.v_in,
      txi.use_key env pkh = true ∧ txi.tx_id = some t ∧ txi.v_out_idx = some i := by
  unfold spendsIn
  constructor
  · intro ⟨tx, htx, h1, h2⟩
    rw [List.mem_singleton] at htx
    subst htx
    exact ⟨h1, h2⟩
  · intro ⟨h1, h2⟩
    exact ⟨T, List.mem_singleton_self _, h1, h2⟩

lemma spendsIn_take (env : Env) (pkh : List Nat) (txs : List Transaction) (k : Nat)
    (t : Hash) (i : Nat) (h : spendsIn env pkh (txs.take k) t i) : spendsIn env pkh txs t i := by
  obtain ⟨tx, htx, hrest⟩ := h
  exact ⟨tx, List.take_subset k txs htx, hrest⟩

/-- The state of the `find_utxo` scan after processing the transaction
prefix `P` (in scan order): the spent map holds exactly the outputs spent by
an input already scanned, and the UTXO map holds exactly the locked outputs
of scanned transactions that were not yet marked spent when their
transaction's outputs were scanned. -/
def ScanInv (env : Env) (pkh : List Nat) (P : List Transaction) (st : UTXO × STXO) : Prop :=
  keysNodup st.2 ∧
  (∀ t i, stxoMem st.2 t i ↔ spendsIn env pkh P t i) ∧
  (∀ t (p : TXOutput × Nat), utxoMem st.1 t p ↔ ∃ k tx, P[k]? = some tx ∧ tx.id = t ∧
    tx.v_out[p.2]? = some p.1 ∧ p.1.is_locking_with_key pkh = true ∧
    ¬ spendsIn env pkh (P.take k) t p.2)

lemma scanInv_init (env : Env) (pkh : List Nat) : ScanInv env pkh [] ([], []) := by
  refine ⟨List.nodup_nil, fun t i => ?_, fun t p => ?_⟩
  · constructor
    · intro h
      exact absurd h (entryMem_nil _ _)
    · intro h
      exact absurd h (spendsIn_nil env pkh t i)
  · constructor
    · intro h
      exact absurd h (entryMem_nil _ _)
    · intro ⟨k, tx, hk, _⟩
      rw [List.getElem?_nil] at hk
      cases hk

lemma scanOutputs_step (env : Env) (pkh : List Nat) (P : List Transaction)
    (st : UTXO × STXO) (T : Transaction) (hinv : ScanInv env pkh P st) :
    ∀ t (p : TXOutput × Nat),
      utxoMem (scanOutputs pkh T.id st.2 st.1 T.v_out.enum) t p ↔
      ∃ k tx, (P ++ [T])[k]? = some tx ∧ tx.id = t ∧ tx.v_out[p.2]? = some p.1 ∧
        p.1.is_locking_with_key pkh = true ∧
        ¬ spendsIn env pkh ((P ++ [T]).take k) t p.2 := by
  obtain ⟨hnd, hstxo, hutxo⟩ := hinv
  intro t p
  rw [scanOutputs_mem]
  rw [hutxo]
  constructor
  · intro h
    rcases h with ⟨k, tx, hk, h1, h2, h3, h4⟩ | ⟨h1, pr, hpr, hp, hsc, hl⟩
    · have hklt : k < P.length := by
        obtain ⟨hlt, _⟩ := List.getElem?_eq_some.mp hk
        exact hlt
      refine ⟨k, tx, ?_, h1, h2, h3, ?_⟩
      · rw [List.getElem?_append, if_pos hklt]
        exact hk
      · rw [List.take_append_of_le_length (le_of_lt hklt)]
        exact h4
    · -- the output of `T` itself, at position `P.length`
      have henum : T.v_out[pr.1]? = some pr.2 := List.mem_enum_iff_getElem?.mp hpr
      subst hp
      refine ⟨P.length, T, ?_, h1.symm, henum, hl, ?_⟩
      · exact List.getElem?_concat_length _ _
      · rw [List.take_left]
        intro hsp
        rw [h1] at hsp
        have := (hstxo T.id pr.1).mpr hsp
        have hcon := (stxoContains_iff T.id pr.1 st.2 hnd).mpr this
        rw [hsc] at hcon
        cases hcon
  · intro ⟨k, tx, hk, h1, h2, h3, h4⟩
    have hklen : k < P.length + 1 := by
      obtain ⟨hlt, _⟩ := List.getElem?_eq_some.mp hk
      rw [List.length_append, List.length_singleton] at hlt
      exact hlt
    by_cases hklt : k < P.length
    · left
      refine ⟨k, tx, ?_, h1, h2, h3, ?_⟩
      · rw [List.getElem?_append, if_pos hklt] at hk
        exact hk
      · rw [List.take_append_of_le_length (le_of_lt hklt)] at h4
        exact h4
    · right
      have hkeq : k = P.length := by omega
      subst hkeq
      rw [List.getElem?_concat_length] at hk
      have htx : T = tx := Option.some.inj hk
      subst htx
      refine ⟨h1.symm, (p.2, p.1), ?_, ?_, ?_, h3⟩
      · exact List.mem_enum_iff_getElem?.mpr h2
      · rfl
      · rw [List.take_left] at h4
        rw [← h1] at h4
        have hns : ¬ stxoMem st.2 T.id p.2 := fun hm => h4 ((hstxo T.id p.2).mp hm)
        have hiff := stxoContains_iff T.id p.2 st.2 hnd
        show stxoContains st.2 T.id p.2 = false
        cases hcv : stxoContains st.2 T.id p.2 with
        | false => rfl
        | true => exact absurd (hiff.mp hcv) hns

lemma processTx_inv (env : Env) (pkh : List Nat) (P : List Transaction)
    (st st2 : UTXO × STXO) (T : Transaction) (hinv : ScanInv env pkh P st)
    (h : processTx env pkh st T = some st2) : ScanInv env pkh (P ++ [T]) st2 := by
  have hout := scanOutputs_step env pkh P st T hinv
  obtain ⟨hnd, hstxo, hutxo⟩ := hinv
  unfold processTx at h
  by_cases hT : T.is_coinbase_tx = true
  · rw [if_pos hT] at h
    have hst2 : st2 = (scanOutputs pkh T.id st.2 st.1 T.v_out.enum, st.2) :=
      (Option.some.inj h).symm
    subst hst2
    refine ⟨hnd, fun t i => ?_, hout⟩
    rw [show ((scanOutputs pkh T.id st.2 st.1 T.v_out.enum, st.2) : UTXO × STXO).2 = st.2
      from rfl]
    rw [hstxo t i, spendsIn_append, spendsIn_single]
    constructor
    · intro hsp
      exact Or.inl hsp
    · intro hsp
      rcases hsp with hsp | ⟨hcb, _⟩
      · exact hsp
      · rw [hT] at hcb
        cases hcb
  · rw [if_neg hT] at h
    rw [Option.map_eq_some'] at h
    obtain ⟨s2, hs2, hst2⟩ := h
    subst hst2
    obtain ⟨hnd2, hmem2⟩ := scanInputs_some env pkh T.v_in st.2 s2 hs2
    refine ⟨hnd2 hnd, fun t i => ?_, hout⟩
    rw [show ((scanOutputs pkh T.id st.2 st.1 T.v_out.enum, s2) : UTXO × STXO).2 = s2
      from rfl]
    rw [hmem2 t i, hstxo t i, spendsIn_append, spendsIn_single]
    rw [Bool.eq_false_iff]
    constructor
    · intro hsp
      rcases hsp with hsp | hsp
      · exact Or.inl hsp
      · exact Or.inr ⟨hT, hsp⟩
    · intro hsp
      rcases hsp with hsp | ⟨_, hsp⟩
      · exact Or.inl hsp
      · exact Or.inr hsp

lemma scanTxs_inv (env : Env) (pkh : List Nat) :
    ∀ (txs P : List Transaction) (st st2 : UTXO × STXO),
      ScanInv env pkh P st → scanTxs env pkh st txs = some st2 →
      ScanInv env pkh (P ++ txs) st2 := by
  intro txs
  induction txs with
  | nil =>
    intro P st st2 hinv h
    have hst : st = st2 := Option.some.inj h
    subst hst
    rw [List.append_nil]
    exact hinv
  | cons T rest ih =>
    intro P st st2 hinv h
    unfold scanTxs at h
    cases hp : processTx env pkh st T with
    | none => rw [hp] at h; cases h
    | some stm =>
      rw [hp] at h
      have hmid := processTx_inv env pkh P st stm T hinv hp
      have := ih (P ++ [T]) stm st2 hmid h
      rw [List.append_assoc] at this
      rw [List.singleton_append] at this
      exact this

/-- For a reachable chain, iterating yields the spine. -/
lemma reachable_iterate (bc : BlockChain) (spine : List Block) (h : Reachable bc spine) :
    bc.iterate = spine := by
  obtain ⟨htip, hget, hlen, hlinks⟩ := reachable_inv bc spine h
  unfold BlockChain.iterate
  exact iterChain_spine bc.db spine bc.tip htip hget hlinks bc.db.length (le_of_eq hlen.symm)

lemma scanTxs_total (env : Env) (pkh : List Nat) :
    ∀ (txs : List Transaction) (st : UTXO × STXO),
      (∀ tx ∈ txs, tx.is_coinbase_tx = false →
        ∀ txi ∈ tx.v_in, (∃ t, txi.tx_id = some t) ∧ ∃ i, txi.v_out_idx = some i) →
      ∃ st2, scanTxs env pkh st txs = some st2 := by
  intro txs
  induction txs with
  | nil =>
    intro st _
    exact ⟨st, rfl⟩
  | cons T rest ih =>
    intro st hall
    have hT2 : ∃ stm, processTx env pkh st T = some stm := by
      unfold processTx
      by_cases hT : T.is_coinbase_tx = true
      · rw [if_pos hT]
        exact ⟨_, rfl⟩
      · rw [if_neg hT]
        obtain ⟨s2, hs2⟩ := scanInputs_total env pkh T.v_in st.2
          (hall T (List.mem_cons_self _ _) (Bool.eq_false_iff.mpr hT))
        rw [hs2]
        exact ⟨_, rfl⟩
    obtain ⟨stm, hstm⟩ := hT2
    obtain ⟨st2, hst2⟩ := ih stm (fun tx h2 => hall tx (List.mem_cons_of_mem _ h2))
    refine ⟨st2, ?_⟩
    unfold scanTxs
    rw [hstm]
    exact hst2

/-- C9: on a chain whose non-coinbase transactions' inputs all carry both a
referenced transaction id and a referenced output index, `find_utxo` never
reaches the `unwrap` failure branches: coinbase transactions (the only ones
whose inputs may lack those fields) are skipped before the input loop. -/
theorem find_utxo_no_panic (env : Env) (bc : BlockChain) (spine : List Block)
    (pkh : List Nat) (hreach : Reachable bc spine)
    (hwf : ∀ b ∈ spine, ∀ tx ∈ b.transactions, tx.is_coinbase_tx = false →
      ∀ txi ∈ tx.v_in, (∃ t, txi.tx_id = some t) ∧ ∃ i, txi.v_out_idx = some i) :
    ∃ u, bc.find_utxo env pkh = some u := by
  unfold BlockChain.find_utxo
  rw [reachable_iterate bc spine hreach]
  have hall : ∀ tx ∈ spine.flatMap (·.transactions), tx.is_coinbase_tx = false →
      ∀ txi ∈ tx.v_in, (∃ t, txi.tx_id = some t) ∧ ∃ i, txi.v_out_idx = some i := by
    intro tx htx
    rw [List.mem_flatMap] at htx
    obtain ⟨b, hb, htxb⟩ := htx
    exact hwf b hb tx htxb
  obtain ⟨st2, hst2⟩ := scanTxs_total env pkh (spine.flatMap (·.transactions)) ([], []) hall
  rw [hst2]
  exact ⟨st2.1, rfl⟩

/-- Witness for C9: the two-block chain whose transactions are all coinbase
satisfies the precondition vacuously, and `find_utxo` succeeds on it. -/
theorem find_utxo_no_panic_witness :
    (Reachable bcW spineW ∧
      (∀ b ∈ spineW, ∀ tx ∈ b.transactions, tx.is_coinbase_tx = false →
        ∀ txi ∈ tx.v_in, (∃ t, txi.tx_id = some t) ∧ ∃ i, txi.v_out_idx = some i)) ∧
    ∃ u, bcW.find_utxo envZero [7] = some u := by
  have hr : Reachable bcW spineW :=
    Reachable.mined _ _ [cbTx] 6 hashB2 1 (Reachable.created cbTx 5 hashG 1) (by decide)
  have hwf : ∀ b ∈ spineW, ∀ tx ∈ b.transactions, tx.is_coinbase_tx = false →
      ∀ txi ∈ tx.v_in, (∃ t, txi.tx_id = some t) ∧ ∃ i, txi.v_out_idx = some i := by
    intro b hb tx htx hcb
    have htxc : tx = cbTx := by
      fin_cases hb <;> simpa [Block.mk_new] using htx
    subst htxc
    exact absurd hcb (by decide)
  exact ⟨⟨hr, hwf⟩, find_utxo_no_panic envZero bcW spineW [7] hr hwf⟩

/-- Transaction whose output 0 (50 units, locked with key hash `[7]`) will be
spent by `tx2` inside the same block. -/
def tx1 : Transaction :=
  ⟨List.replicate 32 3, [⟨some (List.replicate 32 9), some 0, none, [9]⟩], [⟨50, [7]⟩]⟩

/-- Transaction spending output 0 of `tx1` with an input that unlocks with
key hash `[7]` (under `envZero`, whose `hash_pub_key` is the identity). -/
def tx2 : Transaction :=
  ⟨List.replicate 32 4, [⟨some (List.replicate 32 3), some 0, none, [7]⟩], [⟨50, [9]⟩]⟩

/-- Chain whose second block holds `tx1` and, later in the same block's
transaction list, the transaction `tx2` spending `tx1`'s output. -/
def bcC : BlockChain :=
  (BlockChain.create cbTx 5 hashG 1).mine_block [tx1, tx2] 6 hashB2 1

/-- The spine of `bcC`, tip first. -/
def spineC : List Block :=
  [Block.mk_new [tx1, tx2] (some hashG) 6 hashB2 1, Block.mk_new [cbTx] none 5 hashG 1]

/-- Does the (optional) UTXO map returned by `find_utxo` contain the pair? -/
def utxoHas (o : Option UTXO) (t : Hash) (p : TXOutput × Nat) : Bool :=
  match o with
  | none => false
  | some u => decide (utxoMem u t p)

/-- Counterexample to C1: on the reachable chain `bcC`, `find_utxo` returns
output 0 of `tx1` even though an input of `tx2` — in the same block —
references it and satisfies `use_key`. The inline spent-check runs during
the single scan, so a spend recorded after its output was scanned does not
mask it: the claim's "or the same block" case is false. -/
theorem find_utxo_masking_cex :
    Reachable bcC spineC ∧
    utxoHas (BlockChain.find_utxo envZero bcC [7]) (List.replicate 32 3) (⟨50, [7]⟩, 0) = true ∧
    spendsIn envZero [7] (spineC.flatMap (·.transactions)) (List.replicate 32 3) 0 :=
  ⟨Reachable.mined _ _ [tx1, tx2] 6 hashB2 1 (Reachable.created cbTx 5 hashG 1) (by decide),
    by decide, by decide⟩

/-- C1 (amended): for every public-key hash and reachable chain on which
`find_utxo` succeeds, *provided every input satisfying `use_key` that
references a chain transaction's id is scanned strictly before that
transaction* (in particular, whenever every spend lies in a strictly
tip-ward block), `find_utxo` returns exactly the (output, index) pairs whose
output satisfies `is_locking_with_key(pub_key_hash)` and that are not
referenced by any input, anywhere in the chain, satisfying
`use_key(pub_key_hash)`. The original claim's "or the same block" case is
refuted by the counterexample. -/
theorem find_utxo_characterization (env : Env) (bc : BlockChain) (spine : List Block)
    (pkh : List Nat) (txs : List Transaction) (u : UTXO)
    (hreach : Reachable bc spine) (htxs : txs = spine.flatMap (·.transactions))
    (hfind : bc.find_utxo env pkh = some u)
    (htip : ∀ j, ∀ _ : j < txs.length, ∀ k, ∀ _ : k < txs.length,
      (txs[j].is_coinbase_tx = false ∧ ∃ txi ∈ txs[j].v_in,
        txi.use_key env pkh = true ∧ txi.tx_id = some (txs[k].id)) → j < k) :
    ∀ t (p : TXOutput × Nat), utxoMem u t p ↔
      (∃ tx ∈ txs, tx.id = t ∧ tx.v_out[p.2]? = some p.1 ∧
        p.1.is_locking_with_key pkh = true) ∧ ¬ spendsIn env pkh txs t p.2 := by
  subst htxs
  unfold BlockChain.find_utxo at hfind
  rw [reachable_iterate bc spine hreach] at hfind
  rw [Option.map_eq_some'] at hfind
  obtain ⟨st2, hscan, hu⟩ := hfind
  subst hu
  have hinv := scanTxs_inv env pkh (spine.flatMap (·.transactions)) [] ([], []) st2
    (scanInv_init env pkh) hscan
  rw [List.nil_append] at hinv
  set txs := spine.flatMap (·.transactions) with htxsdef
  intro t p
  rw [hinv.2.2 t p]
  constructor
  · intro ⟨k, tx, hk, h1, h2, h3, h4⟩
    obtain ⟨hklt, hget⟩ := List.getElem?_eq_some.mp hk
    refine ⟨⟨tx, List.mem_iff_getElem?.mpr ⟨k, hk⟩, h1, h2, h3⟩, ?_⟩
    intro hsp
    apply h4
    obtain ⟨tx', htx', hcb, txi, htxi, hkey, htid, hidx⟩ := hsp
    obtain ⟨j, hj⟩ := List.mem_iff_getElem?.mp htx'
    obtain ⟨hjlt, hjget⟩ := List.getElem?_eq_some.mp hj
    have hjk : j < k := by
      apply htip j hjlt k hklt
      rw [hjget, hget, h1]
      exact ⟨hcb, txi, htxi, hkey, htid⟩
    refine ⟨tx', ?_, hcb, txi, htxi, hkey, htid, hidx⟩
    apply List.mem_iff_getElem?.mpr
    refine ⟨j, ?_⟩
    rw [List.getElem?_take, if_pos hjk]
    exact hj
  · intro ⟨⟨tx, htx, h1, h2, h3⟩, hns⟩
    obtain ⟨k, hk⟩ := List.mem_iff_getElem?.mp htx
    exact ⟨k, tx, hk, h1, h2, h3,
      fun hsp => hns (spendsIn_take env pkh txs k t p.2 hsp)⟩

/-- Third-block hash for the tip-ward witness chain. -/
def hashB3 : Hash := List.replicate 32 5

/-- Chain where the spend of `tx1`'s output sits in a strictly tip-ward
block: create, mine `[tx1]`, mine `[tx2]`. -/
def bcT : BlockChain :=
  ((BlockChain.create cbTx 5 hashG 1).mine_block [tx1] 6 hashB2 1).mine_block
    [tx2] 7 hashB3 1

/-- The spine of `bcT`, tip first. -/
def spineT : List Block :=
  [Block.mk_new [tx2] (some hashB2) 7 hashB3 1,
    Block.mk_new [tx1] (some hashG) 6 hashB2 1,
    Block.mk_new [cbTx] none 5 hashG 1]

/-- The transactions of `bcT` in scan order. -/
def txsT : List Transaction := [tx2, tx1, cbTx]

/-- The UTXO map `find_utxo` returns on `bcT` for key hash `[7]`: only the
coinbase output remains; `tx1`'s output is masked by `tx2`'s tip-ward spend. -/
def uT : UTXO := [(List.replicate 32 0, [(⟨50, [7]⟩, 0)])]

/-- Witness for the amended C1 on the three-block chain `bcT`. -/
theorem find_utxo_characterization_witness :
    (Reachable bcT spineT ∧ txsT = spineT.flatMap (·.transactions) ∧
      BlockChain.find_utxo envZero bcT [7] = some uT ∧
      (∀ j, ∀ _ : j < txsT.length, ∀ k, ∀ _ : k < txsT.length,
        (txsT[j].is_coinbase_tx = false ∧ ∃ txi ∈ txsT[j].v_in,
          txi.use_key envZero [7] = true ∧ txi.tx_id = some (txsT[k].id)) → j < k)) ∧
    ∀ t (p : TXOutput × Nat), utxoMem uT t p ↔
      (∃ tx ∈ txsT, tx.id = t ∧ tx.v_out[p.2]? = some p.1 ∧
        p.1.is_locking_with_key [7] = true) ∧ ¬ spendsIn envZero [7] txsT t p.2 := by
  have hr : Reachable bcT spineT :=
    Reachable.mined _ _ [tx2] 7 hashB3 1
      (Reachable.mined _ _ [tx1] 6 hashB2 1 (Reachable.created cbTx 5 hashG 1) (by decide))
      (by decide)
  have htxs : txsT = spineT.flatMap (·.transactions) := by decide
  have hfind : BlockChain.find_utxo envZero bcT [7] = some uT := by decide
  have htip : ∀ j, ∀ _ : j < txsT.length, ∀ k, ∀ _ : k < txsT.length,
      (txsT[j].is_coinbase_tx = false ∧ ∃ txi ∈ txsT[j].v_in,
        txi.use_key envZero [7] = true ∧ txi.tx_id = some (txsT[k].id)) → j < k := by
    decide
  exact ⟨⟨hr, htxs, hfind, htip⟩,
    find_utxo_characterization envZero bcT spineT [7] txsT uT hr htxs hfind htip⟩

/-! ## Spendable-output selection (`BlockChain::find_spendable_outputs`)
and transaction building (`BlockChain::new_tx`) -/

/-- Flatten a UTXO map into (transaction id, output, index) triples in
iteration order, matching the nested `for (txid, tx_outs) / for (out, idx)`
loops. -/
def flattenUTXO (u : UTXO) : List (Hash × TXOutput × Nat) :=
  u.flatMap fun e => e.2.map fun p => (e.1, p.1, p.2)

/-- Sum of the output values of flattened triples. -/
def sumVals (L : List (Hash × TXOutput × Nat)) : Nat :=
  (L.map fun tr => tr.2.1.value).sum

/-- The double loop of `find_spendable_outputs` with its labelled
`break 'outer`, as one pass over the flattened triples: collect each
output's index under its transaction id, accumulate its value, and stop as
soon as the accumulated value reaches `amount`. -/
def selectLoop (amount : Nat) :
    List (Hash × TXOutput × Nat) → List (Hash × List Nat) → Nat →
    List (Hash × List Nat) × Nat
  | [], sel, acc => (sel, acc)
  | tr :: rest, sel, acc =>
    let sel2 := entryAdd tr.1 tr.2.2 sel
    let acc2 := acc + tr.2.1.value
    if amount ≤ acc2 then (sel2, acc2) else selectLoop amount rest sel2 acc2

/-- `BlockChain::find_spendable_outputs(address, amount)`. -/
def BlockChain.find_spendable_outputs (env : Env) (bc : BlockChain) (address : String)
    (amount : Nat) : Option (List (Hash × List Nat) × Nat) :=
  (bc.find_utxo env (env.extractPKH address)).map fun u =>
    selectLoop amount (flattenUTXO u) [] 0

/-- `"not implemented yet".as_bytes()`, the placeholder signature. -/
def placeholderSig : ByteData := strBytes "not implemented yet"

/-- The inputs `new_tx` builds: one per selected (transaction id, output
index) pair, each carrying the sender's public key and the placeholder
signature. -/
def mkInputs (sel : List (Hash × List Nat)) (pk : ByteData) : List TXInput :=
  sel.flatMap fun e => e.2.map fun idx => ⟨some e.1, some idx, some placeholderSig, pk⟩

/-- `Wallets::get_wallet(address)` followed by `public_key()`, over the
wallet file contents. -/
def walletKey (wallets : List (String × ByteData)) (address : String) : Option ByteData :=
  (List.find? (fun w => decide (w.1 = address)) wallets).map (·.2)

/-- `BlockChain::new_tx(from, to, amount)`: `none` models the panics (a
`find_utxo` unwrap failure or a missing wallet), `Except.error` the
insufficient-funds return, `Except.ok` the built transaction. -/
def BlockChain.new_tx (env : Env) (wallets : List (String × ByteData)) (bc : BlockChain)
    (fromAddr toAddr : String) (amount : Nat) : Option (Except String Transaction) :=
  (bc.find_spendable_outputs env fromAddr amount).bind fun p =>
    if p.2 < amount then
      some (Except.error ("Cannot transfer " ++ toString amount ++ " from " ++ fromAddr ++
        " to " ++ toAddr ++ ", not enough funds"))
    else
      (walletKey wallets fromAddr).bind fun pk =>
        let inputs := mkInputs p.1 pk
        let outputs := TXOutput.new env amount toAddr ::
          (if amount < p.2 then [TXOutput.new env (p.2 - amount) fromAddr]
            else [])
        some (Except.ok ⟨hash_transaction env inputs outputs, inputs, outputs⟩)

lemma sumVals_cons (tr : Hash × TXOutput × Nat) (L : List (Hash × TXOutput × Nat)) :
    sumVals (tr :: L) = tr.2.1.value + sumVals L := by
  unfold sumVals
  rw [List.map_cons, List.sum_cons]

lemma selectLoop_spec (amount : Nat) :
    ∀ (L : List (Hash × TXOutput × Nat)) (sel0 : List (Hash × List Nat)) (acc0 : Nat),
      ∃ n, n ≤ L.length ∧
        selectLoop amount L sel0 acc0 =
          ((L.take n).foldl (fun s tr => entryAdd tr.1 tr.2.2 s) sel0,
            acc0 + sumVals (L.take n)) ∧
        (amount ≤ acc0 + sumVals (L.take n) ∨ n = L.length) ∧
        ∀ m, 0 < m → m < n → acc0 + sumVals (L.take m) < amount := by
  intro L
  induction L with
  | nil =>
    intro sel0 acc0
    refine ⟨0, le_refl _, ?_, Or.inr rfl, fun m h1 h2 => absurd h2 (by omega)⟩
    show (sel0, acc0) = (sel0, acc0 + sumVals [])
    rw [show sumVals [] = 0 from rfl, Nat.add_zero]
  | cons tr rest ih =>
    intro sel0 acc0
    show ∃ n, n ≤ rest.length + 1 ∧
      (let sel2 := entryAdd tr.1 tr.2.2 sel0
       let acc2 := acc0 + tr.2.1.value
       if amount ≤ acc2 then (sel2, acc2) else selectLoop amount rest sel2 acc2) = _ ∧ _ ∧ _
    by_cases hstop : amount ≤ acc0 + tr.2.1.value
    · refine ⟨1, by omega, ?_, ?_, fun m h1 h2 => absurd h2 (by omega)⟩
      · show (if amount ≤ acc0 + tr.2.1.value then _ else _) = _
        rw [if_pos hstop]
        show (entryAdd tr.1 tr.2.2 sel0, acc0 + tr.2.1.value) =
          ([tr].foldl (fun s tr => entryAdd tr.1 tr.2.2 s) sel0, acc0 + sumVals [tr])
        rw [show sumVals [tr] = tr.2.1.value + sumVals [] from sumVals_cons tr []]
        rw [show sumVals [] = 0 from rfl, Nat.add_zero]
        rfl
      · left
        show amount ≤ acc0 + sumVals [tr]
        rw [sumVals_cons tr [], show sumVals [] = 0 from rfl, Nat.add_zero]
        exact hstop
    · obtain ⟨n2, hn2, heq, hcond, hmin⟩ :=
        ih (entryAdd tr.1 tr.2.2 sel0) (acc0 + tr.2.1.value)
      refine ⟨n2 + 1, by omega, ?_, ?_, ?_⟩
      · show (if amount ≤ acc0 + tr.2.1.value then _ else _) = _
        rw [if_neg hstop]
        rw [heq]
        show _ = (((tr :: rest).take (n2 + 1)).foldl _ sel0,
          acc0 + sumVals ((tr :: rest).take (n2 + 1)))
        rw [List.take_succ_cons, List.foldl_cons, sumVals_cons]
        rw [Nat.add_assoc]
      · rcases hcond with hcond | hcond
        · left
          rw [List.take_succ_cons, sumVals_cons]
          omega
        · right
          rw [List.length_cons, hcond]
      · intro m h1 h2
        cases m with
        | zero => omega
        | succ m2 =>
          rw [List.take_succ_cons, sumVals_cons]
          cases Nat.eq_zero_or_pos m2 with
          | inl hz =>
            subst hz
            rw [show rest.take 0 = [] from rfl, show sumVals [] = 0 from rfl]
            omega
          | inr hpos =>
            have := hmin m2 hpos (by omega)
            omega

/-- C6: `find_spendable_outputs` accumulates unspent outputs one at a time
in the iteration order of the derived UTXO set, stopping as soon as the
accumulated value reaches `amount`; the returned total is the sum of the
values of the selected prefix (hence of the returned selection), and is
either at least `amount` or — when the address's entire unspent value is
below `amount` — equal to that entire unspent value. -/
theorem find_spendable_outputs_spec (env : Env) (bc : BlockChain) (address : String)
    (amount : Nat) (sel : List (Hash × List Nat)) (acc : Nat)
    (h : bc.find_spendable_outputs env address amount = some (sel, acc)) :
    ∃ u, bc.find_utxo env (env.extractPKH address) = some u ∧
      ∃ n, n ≤ (flattenUTXO u).length ∧
        sel = ((flattenUTXO u).take n).foldl (fun s tr => entryAdd tr.1 tr.2.2 s) [] ∧
        acc = sumVals ((flattenUTXO u).take n) ∧
        (amount ≤ acc ∨ n = (flattenUTXO u).length) ∧
        (amount ≤ acc ∨ acc = sumVals (flattenUTXO u)) ∧
        ∀ m, 0 < m → m < n → sumVals ((flattenUTXO u).take m) < amount := by
  unfold BlockChain.find_spendable_outputs at h
  rw [Option.map_eq_some'] at h
  obtain ⟨u, hu, hsel⟩ := h
  obtain ⟨n, hn, heq, hcond, hmin⟩ := selectLoop_spec amount (flattenUTXO u) [] 0
  rw [heq] at hsel
  have hs1 : sel = ((flattenUTXO u).take n).foldl (fun s tr => entryAdd tr.1 tr.2.2 s) [] :=
    (congrArg Prod.fst hsel).symm
  have hs2 : acc = sumVals ((flattenUTXO u).take n) := by
    have := (congrArg Prod.snd hsel).symm
    rw [Nat.zero_add] at this
    exact this
  refine ⟨u, hu, n, hn, hs1, hs2, ?_, ?_, fun m h1 h2 => ?_⟩
  · rcases hcond with hc | hc
    · left
      rw [hs2]
      rw [Nat.zero_add] at hc
      exact hc
    · right
      exact hc
  · rcases hcond with hc | hc
    · left
      rw [hs2]
      rw [Nat.zero_add] at hc
      exact hc
    · right
      rw [hs2, hc, List.take_length]
  · have := hmin m h1 h2
    rw [Nat.zero_add] at this
    exact this

/-- Coinbase transaction paying 50 to the key hash of address `"A"`
(`envZero.extractPKH "A" = [65]`). -/
def cbA : Transaction :=
  ⟨List.replicate 32 0, [⟨none, none, none, [66]⟩], [⟨50, [65]⟩]⟩

/-- Single-block chain holding only `cbA`. -/
def bcA : BlockChain := BlockChain.create cbA 5 hashG 1

/-- Witness for C6: selecting 30 from the 50-unit genesis output of `bcA`. -/
theorem find_spendable_outputs_spec_witness :
    bcA.find_spendable_outputs envZero "A" 30 = some ([(List.replicate 32 0, [0])], 50) ∧
    ∃ u, bcA.find_utxo envZero (envZero.extractPKH "A") = some u ∧
      ∃ n, n ≤ (flattenUTXO u).length ∧
        [(List.replicate 32 0, [0])] =
          ((flattenUTXO u).take n).foldl (fun s tr => entryAdd tr.1 tr.2.2 s) [] ∧
        50 = sumVals ((flattenUTXO u).take n) ∧
        (30 ≤ 50 ∨ n = (flattenUTXO u).length) ∧
        (30 ≤ 50 ∨ 50 = sumVals (flattenUTXO u)) ∧
        ∀ m, 0 < m → m < n → sumVals ((flattenUTXO u).take m) < 30 := by
  have h : bcA.find_spendable_outputs envZero "A" 30 =
      some ([(List.replicate 32 0, [0])], 50) := by decide
  exact ⟨h, find_spendable_outputs_spec envZero bcA "A" 30 _ _ h⟩

lemma mkInputs_mem (sel : List (Hash × List Nat)) (pk : ByteData) (txi : TXInput) :
    txi ∈ mkInputs sel pk ↔ ∃ e ∈ sel, ∃ idx ∈ e.2,
      txi = ⟨some e.1, some idx, some placeholderSig, pk⟩ := by
  unfold mkInputs
  rw [List.mem_flatMap]
  constructor
  · intro ⟨e, he, hm⟩
    rw [List.mem_map] at hm
    obtain ⟨idx, hidx, heq⟩ := hm
    exact ⟨e, he, idx, hidx, heq.symm⟩
  · intro ⟨e, he, idx, hidx, heq⟩
    exact ⟨e, he, List.mem_map.mpr ⟨idx, hidx, heq.symm⟩⟩

/-- C5: `new_tx` returns the insufficient-funds error naming `amount`,
`from` and `to` iff the accumulated spendable value is below `amount`;
otherwise, given the sender's wallet, it returns a transaction with one
input per selected (transaction id, output index) pair — each carrying the
sender's public key and the placeholder signature — one output paying
`amount` to `to`, a change output of the excess to `from` exactly when the
accumulated value strictly exceeds `amount`, and an id computed by
`hash_transaction` over the assembled inputs and outputs. -/
theorem new_tx_spec (env : Env) (wallets : List (String × ByteData)) (bc : BlockChain)
    (fromAddr toAddr : String) (amount : Nat) (sel : List (Hash × List Nat)) (acc : Nat)
    (hfind : bc.find_spendable_outputs env fromAddr amount = some (sel, acc)) :
    (BlockChain.new_tx env wallets bc fromAddr toAddr amount =
        some (Except.error ("Cannot transfer " ++ toString amount ++ " from " ++ fromAddr ++
          " to " ++ toAddr ++ ", not enough funds")) ↔ acc < amount) ∧
    ∀ pk, walletKey wallets fromAddr = some pk → amount ≤ acc →
      ∃ tx, BlockChain.new_tx env wallets bc fromAddr toAddr amount =
          some (Except.ok tx) ∧
        tx.v_in = mkInputs sel pk ∧
        (∀ txi ∈ tx.v_in, txi.pub_key = pk ∧ txi.signature = some placeholderSig ∧
          ∃ e ∈ sel, ∃ idx ∈ e.2, txi.tx_id = some e.1 ∧ txi.v_out_idx = some idx) ∧
        tx.v_out = TXOutput.new env amount toAddr ::
          (if amount < acc then [TXOutput.new env (acc - amount) fromAddr] else []) ∧
        tx.id = hash_transaction env tx.v_in tx.v_out := by
  unfold BlockChain.new_tx
  rw [hfind]
  simp only [Option.some_bind]
  by_cases hlt : acc < amount
  · rw [if_pos hlt]
    constructor
    · exact ⟨fun _ => hlt, fun _ => rfl⟩
    · intro pk _ hge
      exact absurd hge (by omega)
  · rw [if_neg hlt]
    cases hw : walletKey wallets fromAddr with
    | none =>
      simp only [Option.none_bind]
      constructor
      · constructor
        · intro h
          cases h
        · intro h
          exact absurd h hlt
      · intro pk hpk _
        exact Option.noConfusion hpk
    | some pk =>
      simp only [Option.some_bind]
      constructor
      · constructor
        · intro h
          have := Option.some.inj h
          cases this
        · intro h
          exact absurd h hlt
      · intro pk2 hpk hge
        have hpk2 : pk = pk2 := Option.some.inj hpk
        subst hpk2
        refine ⟨_, rfl, rfl, ?_, rfl, rfl⟩
        intro txi htxi
        rw [mkInputs_mem] at htxi
        obtain ⟨e, he, idx, hidx, heq⟩ := htxi
        subst heq
        exact ⟨rfl, rfl, e, he, idx, hidx, rfl, rfl⟩

/-- Witness for C5: spending 30 of the 50-unit genesis output of `bcA` from
address `"A"` to `"B"`. -/
theorem new_tx_spec_witness :
    bcA.find_spendable_outputs envZero "A" 30 = some ([(List.replicate 32 0, [0])], 50) ∧
    ((BlockChain.new_tx envZero [("A", [9])] bcA "A" "B" 30 =
        some (Except.error ("Cannot transfer " ++ toString 30 ++ " from " ++ "A" ++
          " to " ++ "B" ++ ", not enough funds")) ↔ 50 < 30) ∧
    ∀ pk, walletKey [("A", [9])] "A" = some pk → 30 ≤ 50 →
      ∃ tx, BlockChain.new_tx envZero [("A", [9])] bcA "A" "B" 30 =
          some (Except.ok tx) ∧
        tx.v_in = mkInputs [(List.replicate 32 0, [0])] pk ∧
        (∀ txi ∈ tx.v_in, txi.pub_key = pk ∧ txi.signature = some placeholderSig ∧
          ∃ e ∈ [(List.replicate 32 0, [0])], ∃ idx ∈ e.2,
            txi.tx_id = some e.1 ∧ txi.v_out_idx = some idx) ∧
        tx.v_out = TXOutput.new envZero 30 "B" ::
          (if 30 < 50 then [TXOutput.new envZero (50 - 30) "A"] else []) ∧
        tx.id = hash_transaction envZero tx.v_in tx.v_out) := by
  have h : bcA.find_spendable_outputs envZero "A" 30 =
      some ([(List.replicate 32 0, [0])], 50) := by decide
  exact ⟨h, new_tx_spec envZero [("A", [9])] bcA "A" "B" 30 _ _ h⟩

/-- C10: for every pair of addresses, `new_tx` with amount 0 never returns
the insufficient-funds error — the accumulated value, a natural number, is
never below 0; in particular, when `from` has no unspent outputs at all
(and its wallet exists), it returns a transaction with an empty input list
and a single output of value 0 locked to `to`. -/
theorem new_tx_zero_never_insufficient (env : Env) (wallets : List (String × ByteData))
    (bc : BlockChain) (fromAddr toAddr : String) (u : UTXO)
    (hutxo : bc.find_utxo env (env.extractPKH fromAddr) = some u) :
    (∀ e, BlockChain.new_tx env wallets bc fromAddr toAddr 0 ≠ some (Except.error e)) ∧
    (u = [] → ∀ pk, walletKey wallets fromAddr = some pk →
      BlockChain.new_tx env wallets bc fromAddr toAddr 0 =
        some (Except.ok ⟨hash_transaction env [] [TXOutput.new env 0 toAddr], [],
          [TXOutput.new env 0 toAddr]⟩)) := by
  have hfind : bc.find_spendable_outputs env fromAddr 0 =
      some (selectLoop 0 (flattenUTXO u) [] 0) := by
    unfold BlockChain.find_spendable_outputs
    rw [hutxo]
    rfl
  constructor
  · intro e
    unfold BlockChain.new_tx
    rw [hfind]
    simp only [Option.some_bind]
    rw [if_neg (by omega)]
    cases hw : walletKey wallets fromAddr with
    | none => simp
    | some pk =>
      simp only [Option.some_bind]
      intro h
      have := Option.some.inj h
      cases this
  · intro hu pk hpk
    subst hu
    unfold BlockChain.new_tx
    rw [hfind]
    simp only [Option.some_bind]
    rw [show selectLoop 0 (flattenUTXO []) [] 0 = ([], 0) from rfl]
    rw [if_neg (by omega)]
    rw [hpk]
    simp only [Option.some_bind]
    rfl

/-- Witness for C10: address `"B"` owns nothing on the single-block chain
`bcA`, and `new_tx` with amount 0 builds the empty-input zero-value
transaction. -/
theorem new_tx_zero_never_insufficient_witness :
    bcA.find_utxo envZero (envZero.extractPKH "B") = some [] ∧
    ((∀ e, BlockChain.new_tx envZero [("B", [1])] bcA "B" "C" 0 ≠ some (Except.error e)) ∧
      (([] : UTXO) = [] → ∀ pk, walletKey [("B", [1])] "B" = some pk →
        BlockChain.new_tx envZero [("B", [1])] bcA "B" "C" 0 =
          some (Except.ok ⟨hash_transaction envZero [] [TXOutput.new envZero 0 "C"], [],
            [TXOutput.new envZero 0 "C"]⟩))) := by
  have h : bcA.find_utxo envZero (envZero.extractPKH "B") = some [] := by decide
  exact ⟨h, new_tx_zero_never_insufficient envZero [("B", [1])] bcA "B" "C" [] h⟩
